import Mathlib

/-!
Verification of the CIDR range-set engine of `ipcalculator` (src/main.rs).

The source defines two structurally identical families, `Ipv4Range` (32-bit)
and `Ipv6Range` (128-bit), whose implementations differ only in the bit width.
We embed them as a single structure `IpRange` over `Nat` together with a width
parameter `w`; the IPv4 operations are the instantiations at `w = 32` and the
IPv6 operations those at `w = 128`.  Machine integers `u32`/`u128` become `Nat`
with explicit `% 2 ^ w` / bound hypotheses where overflow matters.
-/

namespace IpCalc

/-- Embeds the structs `Ipv4Range { ip: u32, cidr: u8 }` and
`Ipv6Range { ip: u128, cidr: u8 }` (src/main.rs:8-18): a base address `ip`
and a prefix length `cidr`, width-generically over `Nat`. -/
structure IpRange where
  ip : Nat
  cidr : Nat
deriving DecidableEq, Repr

/-- Default element used to model Rust's indexing; the development only ever
indexes in bounds (Rust would panic otherwise), which the invariant proofs
establish at every call site. -/
def d0 : IpRange := ⟨0, 0⟩

instance : Inhabited IpRange := ⟨d0⟩

/-- `fn normalize(&mut self)` (src/main.rs:77-85 and 125-133), as a partial
function: the `_ => panic!("invalid CIDR size")` arm is modelled by `none`.
The u32 expression `<u32>::max_value() << (32 - self.cidr)` is embedded as
`((2 ^ w - 1) <<< (w - cidr)) % 2 ^ w` (wrapping shift on a `w`-bit word). -/
def normalizeAux (w : Nat) (r : IpRange) : Option IpRange :=
  if r.cidr = 0 then some { r with ip := 0 }
  else if r.cidr < w then
    some { r with ip := Nat.land r.ip ((((2 : Nat) ^ w - 1) <<< (w - r.cidr)) % 2 ^ w) }
  else if r.cidr = w then some r
  else none

/-- Total version of `normalize` used by the other operations.  It agrees with
`normalizeAux` whenever `cidr ≤ w` (lemma `normalizeAux_eq_some`); the source
panics otherwise, and every internal call is shown to satisfy `cidr ≤ w`. -/
def normalize (w : Nat) (r : IpRange) : IpRange :=
  (normalizeAux w r).getD r

/-- `fn _set_cidr(&mut self, c: u8)` (src/main.rs:86-89). -/
def set_cidr (r : IpRange) (c : Nat) : IpRange :=
  { r with cidr := c }

/-- `fn _reduce_cidr_by_one(&mut self)` (src/main.rs:90-98): a no-op at
`cidr = 0`, otherwise decrement `cidr` and re-normalize. -/
def reduce_cidr_by_one (w : Nat) (r : IpRange) : IpRange :=
  match r.cidr with
  | 0 => r
  | n + 1 => normalize w { r with cidr := n }

/-- `fn is_subset_of(&self, other)` (src/main.rs:99-101):
`self.cidr >= other.cidr && self.clone()._set_cidr(other.cidr).normalize().ip == other.ip`. -/
def is_subset_of (w : Nat) (a b : IpRange) : Bool :=
  decide (b.cidr ≤ a.cidr) && decide ((normalize w (set_cidr a b.cidr)).ip = b.ip)

/-- `fn is_superset_of(&self, other)` (src/main.rs:102-104). -/
def is_superset_of (w : Nat) (a b : IpRange) : Bool :=
  decide (a.cidr ≤ b.cidr) && decide ((normalize w (set_cidr b a.cidr)).ip = a.ip)

/-- `fn merge_with(&self, other) -> Option<Self>` (src/main.rs:105-121):
subset precedence first, then equal lengths with a common parent. -/
def merge_with (w : Nat) (a b : IpRange) : Option IpRange :=
  if is_subset_of w a b then some b
  else if is_subset_of w b a then some a
  else if a.cidr ≠ b.cidr then none
  else if (reduce_cidr_by_one w a).ip = (reduce_cidr_by_one w b).ip then
    some (reduce_cidr_by_one w a)
  else none

/-- Models `Vec::binary_search_by(|probe| probe.cmp(&i))` (src/main.rs:326,368)
through its documented contract: `Ok i` when an element with the given key is
present, `Err i` with the insertion index otherwise.  The `Ord` instances of
the source compare by `ip` alone (src/main.rs:48-58).  On the strictly sorted
vectors that `IpRangeList` maintains the contract determines the result
uniquely, so the linear realization below is an exact model there. -/
def binary_search (key : Nat) : List IpRange → Except Nat Nat
  | [] => .error 0
  | x :: xs =>
    if x.ip < key then
      match binary_search key xs with
      | .ok i => .ok (i + 1)
      | .error i => .error (i + 1)
    else if x.ip = key then .ok 0
    else .error 0

/-- `Vec::insert(idx, i)`: insert at position `idx`. -/
def insertAt : Nat → IpRange → List IpRange → List IpRange
  | 0, a, l => a :: l
  | _ + 1, a, [] => [a]
  | n + 1, a, x :: xs => x :: insertAt n a xs

/-- One list-surgery step of `neighbor_merge_v4` / `neighbor_merge_v6`
(src/main.rs:301-306): `self.v4.remove(j); self.v4[j] = r`. -/
def collapseAt (l : List IpRange) (j : Nat) (r : IpRange) : List IpRange :=
  (l.eraseIdx j).set j r

theorem collapseAt_length_le (l : List IpRange) (j : Nat) (r : IpRange) :
    (collapseAt l j r).length ≤ l.length := by
  simp only [collapseAt, List.length_set]
  exact List.length_eraseIdx_le _ _

theorem collapseAt_length_lt (l : List IpRange) (j : Nat) (r : IpRange)
    (h : j < l.length) : (collapseAt l j r).length < l.length := by
  simp only [collapseAt, List.length_set]
  rw [List.length_eraseIdx_of_lt h]
  omega

mutual

/-- `fn neighbor_merge_v4(&mut self, idx)` (src/main.rs:299-323) and its v6
twin (src/main.rs:341-365), with the length bound carried in the result type
to justify termination.  Left step: try to merge `v[idx-1]` with `v[idx]`,
collapse (`remove` then overwrite) and recurse at `idx - 1`; then, on the
updated list, the right step `neighborMergeRight`. -/
def neighborMergeGo (w : Nat) (l : List IpRange) (idx : Nat) :
    { r : List IpRange // r.length ≤ l.length } :=
  if h1 : 0 < idx then
    match merge_with w (l.getD (idx - 1) d0) (l.getD idx d0) with
    | some r =>
      let res := neighborMergeGo w (collapseAt l (idx - 1) r) (idx - 1)
      let res2 := neighborMergeRight w res.1 idx
      ⟨res2.1, le_trans res2.2 (le_trans res.2 (collapseAt_length_le l (idx - 1) r))⟩
    | none =>
      let res2 := neighborMergeRight w l idx
      ⟨res2.1, res2.2⟩
  else
    let res2 := neighborMergeRight w l idx
    ⟨res2.1, res2.2⟩
termination_by (l.length + idx, 1)
decreasing_by
  · have := collapseAt_length_le l (idx - 1) r
    have h2 : (collapseAt l (idx - 1) r).length + (idx - 1) < l.length + idx := by omega
    exact Prod.Lex.left _ _ h2
  · have hres := res.2
    have := collapseAt_length_le l (idx - 1) r
    have h2 : res.1.length + idx ≤ l.length + idx := by omega
    rcases Nat.lt_or_ge (res.1.length + idx) (l.length + idx) with h | h
    · exact Prod.Lex.left _ _ h
    · have h3 : res.1.length + idx = l.length + idx := by omega
      rw [h3]
      exact Prod.Lex.right _ (by omega)
  · rcases Nat.lt_or_ge (l.length + idx) (l.length + idx) with h | h
    · exact Prod.Lex.left _ _ h
    · exact Prod.Lex.right _ (by omega)
  · exact Prod.Lex.right _ (by omega)

/-- Right half of `neighbor_merge_v4` (src/main.rs:311-321): try to merge
`v[idx]` with `v[idx+1]`, collapse and restart the full procedure at `idx`. -/
def neighborMergeRight (w : Nat) (l : List IpRange) (idx : Nat) :
    { r : List IpRange // r.length ≤ l.length } :=
  if h3 : idx + 1 < l.length then
    match merge_with w (l.getD idx d0) (l.getD (idx + 1) d0) with
    | some r =>
      let res := neighborMergeGo w (collapseAt l idx r) idx
      ⟨res.1, le_trans res.2 (collapseAt_length_le l idx r)⟩
    | none => ⟨l, le_refl _⟩
  else ⟨l, le_refl _⟩
termination_by (l.length + idx, 0)
decreasing_by
  · have := collapseAt_length_lt l idx r (by omega)
    exact Prod.Lex.left _ _ (by omega)

end

/-- `neighbor_merge_v4` / `neighbor_merge_v6` proper. -/
def neighbor_merge (w : Nat) (l : List IpRange) (idx : Nat) : List IpRange :=
  (neighborMergeGo w l idx).1

/-- `fn add_v4(&mut self, i)` (src/main.rs:325-339) and `add_v6`
(src/main.rs:367-381).  The `None => unreachable!()` arm is a panic in the
source and is modelled by `none`. -/
def add (w : Nat) (l : List IpRange) (i : IpRange) : Option (List IpRange) :=
  match binary_search i.ip l with
  | .ok idx =>
    match merge_with w i (l.getD idx d0) with
    | some r => some (neighbor_merge w (l.set idx r) idx)
    | none => none
  | .error idx => some (neighbor_merge w (insertAt idx i l) idx)

/-- Iterated insertion, as in `add_list` (src/main.rs:279-287); a panic in any
step propagates. -/
def addAll (w : Nat) (l : List IpRange) : List IpRange → Option (List IpRange)
  | [] => some l
  | p :: ps =>
    match add w l p with
    | some l' => addAll w l' ps
    | none => none

/-- `fn substract_v4(&mut self, i)` (src/main.rs:383-388) and `substract_v6`
(src/main.rs:390-395): `for it in &mut self.v4 { unimplemented!() }` — a
panic (`none`) as soon as the vector is non-empty, the unchanged vector
otherwise.  The argument is unused before the panic. -/
def substract (l : List IpRange) (_ : IpRange) : Option (List IpRange) :=
  match l with
  | [] => some []
  | _ :: _ => none

/-- IPv4 instantiations (width 32). -/
def add_v4 (l : List IpRange) (i : IpRange) : Option (List IpRange) := add 32 l i

def neighbor_merge_v4 (l : List IpRange) (idx : Nat) : List IpRange := neighbor_merge 32 l idx

def substract_v4 (l : List IpRange) (i : IpRange) : Option (List IpRange) := substract l i

/-- IPv6 instantiations (width 128). -/
def add_v6 (l : List IpRange) (i : IpRange) : Option (List IpRange) := add 128 l i

def substract_v6 (l : List IpRange) (i : IpRange) : Option (List IpRange) := substract l i

/-! ### Interval view of a normalized range -/

/-- Number of addresses covered by `r` at width `w` (`size(n) = 2^(W-n)`). -/
def sz (w : Nat) (r : IpRange) : Nat := 2 ^ (w - r.cidr)

/-- One past the last address covered by `r`. -/
def rEnd (w : Nat) (r : IpRange) : Nat := r.ip + sz w r

/-- Well-formed normalized range at width `w`: `ip` fits in `w` bits, the
prefix length is in range, and the host bits of `ip` are zero.  Every value
stored in an `IpRangeList` has this shape. -/
def WF (w : Nat) (r : IpRange) : Prop :=
  r.ip < 2 ^ w ∧ r.cidr ≤ w ∧ r.ip % sz w r = 0

/-- Address membership: the semantics of a normalized range. -/
def inR (w : Nat) (a : Nat) (r : IpRange) : Prop :=
  r.ip ≤ a ∧ a < rEnd w r

theorem sz_pos (w : Nat) (r : IpRange) : 0 < sz w r :=
  Nat.pos_pow_of_pos _ (by norm_num)

theorem inR_ip (w : Nat) (r : IpRange) : inR w r.ip r :=
  ⟨le_refl _, Nat.lt_add_of_pos_right (sz_pos w r)⟩

/-! ### Bit-level facts about the normalization mask -/

theorem mask_eq (w s : Nat) (hs : s ≤ w) :
    (((2 : Nat) ^ w - 1) <<< s) % 2 ^ w = (2 ^ (w - s) - 1) * 2 ^ s := by
  rw [Nat.shiftLeft_eq]
  have h1 : (2 : Nat) ^ w = 2 ^ (w - s) * 2 ^ s := by
    rw [← pow_add]
    congr 1
    omega
  have h2 : (1 : Nat) ≤ 2 ^ s := Nat.one_le_two_pow
  have h3 : (1 : Nat) ≤ 2 ^ (w - s) := Nat.one_le_two_pow
  have h4 : (1 : Nat) ≤ 2 ^ w := Nat.one_le_two_pow
  have key : ((2 : Nat) ^ w - 1) * 2 ^ s = 2 ^ w * (2 ^ s - 1) + (2 ^ (w - s) - 1) * 2 ^ s := by
    have h1' : ((2 : Int)) ^ w = 2 ^ (w - s) * 2 ^ s := by exact_mod_cast h1
    zify [h2, h3, h4]
    rw [h1']
    ring
  rw [key, Nat.mul_add_mod]
  apply Nat.mod_eq_of_lt
  calc (2 ^ (w - s) - 1) * 2 ^ s < 2 ^ (w - s) * 2 ^ s := by
        have hp : (0 : Nat) < 2 ^ s := by positivity
        exact Nat.mul_lt_mul_of_lt_of_le (by omega) (le_refl _) hp
    _ = 2 ^ w := h1.symm

theorem land_mask (x s k : Nat) (hx : x < 2 ^ (s + k)) :
    Nat.land x ((2 ^ k - 1) * 2 ^ s) = x / 2 ^ s * 2 ^ s := by
  have hmask : (2 ^ k - 1) * 2 ^ s = (2 ^ k - 1) <<< s := (Nat.shiftLeft_eq _ _).symm
  have hdiv : x / 2 ^ s * 2 ^ s = (x >>> s) <<< s := by
    rw [Nat.shiftRight_eq_div_pow, Nat.shiftLeft_eq]
  rw [hmask, hdiv]
  apply Nat.eq_of_testBit_eq
  intro i
  show (x &&& (2 ^ k - 1) <<< s).testBit i = _
  rw [Nat.testBit_land, Nat.testBit_shiftLeft, Nat.testBit_shiftLeft,
    Nat.testBit_shiftRight, Nat.testBit_two_pow_sub_one]
  by_cases hsi : s ≤ i
  · have hi : s + (i - s) = i := by omega
    rw [hi]
    by_cases hik : i - s < k
    · simp [hsi, hik, ge_iff_le]
    · have hxi : x.testBit i = false :=
        Nat.testBit_lt_two_pow (lt_of_lt_of_le hx (Nat.pow_le_pow_right (by norm_num) (by omega)))
      simp [hsi, hik, hxi, ge_iff_le]
  · simp [hsi, ge_iff_le, Bool.and_comm]

/-! ### Characterization of `normalize` -/

theorem normalizeAux_none_iff (w : Nat) (r : IpRange) :
    normalizeAux w r = none ↔ w < r.cidr := by
  unfold normalizeAux
  split_ifs with h1 h2 h3 <;> simp <;> omega

theorem normalizeAux_eq_some (w : Nat) (r : IpRange) (h : r.cidr ≤ w) :
    normalizeAux w r = some (normalize w r) := by
  have hn : normalizeAux w r ≠ none := by
    rw [Ne, normalizeAux_none_iff]
    omega
  unfold normalize
  cases hx : normalizeAux w r with
  | none => exact absurd hx hn
  | some v => rfl

theorem normalize_eq (w : Nat) (r : IpRange) (h1 : r.ip < 2 ^ w) (h2 : r.cidr ≤ w) :
    normalize w r = ⟨r.ip / 2 ^ (w - r.cidr) * 2 ^ (w - r.cidr), r.cidr⟩ := by
  unfold normalize normalizeAux
  rcases Nat.eq_zero_or_pos r.cidr with h0 | h0
  · rw [if_pos h0, Option.getD_some]
    have hd : r.ip / 2 ^ (w - r.cidr) = 0 := by
      apply Nat.div_eq_of_lt
      calc r.ip < 2 ^ w := h1
        _ ≤ 2 ^ (w - r.cidr) := by rw [h0, Nat.sub_zero]
    simp [hd]
  · rw [if_neg (by omega : ¬ r.cidr = 0)]
    by_cases hlt : r.cidr < w
    · rw [if_pos hlt, Option.getD_some]
      have hm := mask_eq w (w - r.cidr) (by omega)
      have hk : w - (w - r.cidr) = r.cidr := by omega
      rw [hk] at hm
      have hx : r.ip < 2 ^ (w - r.cidr + r.cidr) := by
        rw [show w - r.cidr + r.cidr = w by omega]
        exact h1
      rw [hm, land_mask r.ip (w - r.cidr) r.cidr hx]
    · rw [if_neg hlt, if_pos (by omega : r.cidr = w), Option.getD_some]
      have hz : w - r.cidr = 0 := by omega
      rw [hz]
      cases r
      simp

theorem normalize_of_WF (w : Nat) (r : IpRange) (h : WF w r) : normalize w r = r := by
  obtain ⟨h1, h2, h3⟩ := h
  rw [normalize_eq w r h1 h2]
  simp only [sz] at h3
  have hdm := Nat.div_add_mod r.ip (2 ^ (w - r.cidr))
  rw [h3, Nat.add_zero] at hdm
  have hip : r.ip / 2 ^ (w - r.cidr) * 2 ^ (w - r.cidr) = r.ip := by
    rw [Nat.mul_comm]
    exact hdm
  rw [hip]

theorem normalize_WF (w : Nat) (r : IpRange) (h1 : r.ip < 2 ^ w) (h2 : r.cidr ≤ w) :
    WF w (normalize w r) := by
  rw [normalize_eq w r h1 h2]
  refine ⟨?_, h2, ?_⟩
  · exact lt_of_le_of_lt (Nat.div_mul_le_self _ _) h1
  · simp [sz, Nat.mul_mod_left]

/-! ### Divisibility helpers for dyadic intervals -/

theorem dvd_lt_step {s x y : Nat} (hdx : s ∣ x) (hdy : s ∣ y) (hs : 0 < s) (h : x < y) :
    x + s ≤ y := by
  obtain ⟨p, rfl⟩ := hdx
  obtain ⟨q, rfl⟩ := hdy
  have hpq : p < q := by
    by_contra hc
    push_neg at hc
    exact absurd (Nat.mul_le_mul_left s hc) (by omega)
  calc s * p + s = s * (p + 1) := by ring
    _ ≤ s * q := Nat.mul_le_mul_left s (by omega)

theorem dvd_sandwich {s b a : Nat} (hs : 0 < s) (hdvd : s ∣ b) (h1 : b ≤ a) (h2 : a < b + s) :
    a / s * s = b := by
  obtain ⟨q, rfl⟩ := hdvd
  have : a / s = q := by
    apply Nat.div_eq_of_lt_le
    · simpa [Nat.mul_comm] using h1
    · calc a < s * q + s := h2
        _ = (q + 1) * s := by ring
  rw [this, Nat.mul_comm]

theorem sz_dvd_ip (w : Nat) (r : IpRange) (h : WF w r) : sz w r ∣ r.ip :=
  Nat.dvd_of_mod_eq_zero h.2.2

theorem sz_dvd_sz (w : Nat) (a b : IpRange) (h : b.cidr ≤ a.cidr) : sz w a ∣ sz w b :=
  pow_dvd_pow 2 (by omega)

theorem sz_le_sz_iff (w : Nat) (a b : IpRange) (ha : a.cidr ≤ w) (hb : b.cidr ≤ w) :
    sz w a ≤ sz w b ↔ b.cidr ≤ a.cidr := by
  unfold sz
  rw [Nat.pow_le_pow_iff_right (by norm_num)]
  omega

theorem lt_div_succ_mul (a b : Nat) (h : 0 < b) : a < (a / b + 1) * b := by
  have h1 := Nat.div_add_mod a b
  have h2 := Nat.mod_lt a h
  have h3 : (a / b + 1) * b = b * (a / b) + b := by ring
  omega

/-! ### Characterization of `is_subset_of` as interval containment -/

theorem is_subset_of_iff (w : Nat) (a b : IpRange) (ha : WF w a) (hb : WF w b) :
    is_subset_of w a b = true ↔ (b.ip ≤ a.ip ∧ rEnd w a ≤ rEnd w b) := by
  obtain ⟨ha1, ha2, ha3⟩ := ha
  obtain ⟨hb1, hb2, hb3⟩ := hb
  unfold is_subset_of set_cidr
  rw [normalize_eq w ⟨a.ip, b.cidr⟩ ha1 hb2]
  simp only [Bool.and_eq_true, decide_eq_true_eq]
  have hsb : (0 : Nat) < 2 ^ (w - b.cidr) := by positivity
  have hsa : (0 : Nat) < 2 ^ (w - a.cidr) := by positivity
  constructor
  · rintro ⟨hc, hip⟩
    have hdvd : (2 : Nat) ^ (w - a.cidr) ∣ 2 ^ (w - b.cidr) := pow_dvd_pow 2 (by omega)
    have hdb : (2 : Nat) ^ (w - b.cidr) ∣ b.ip := Nat.dvd_of_mod_eq_zero hb3
    refine ⟨?_, ?_⟩
    · rw [← hip]
      exact Nat.div_mul_le_self _ _
    · have hlt : a.ip < b.ip + 2 ^ (w - b.cidr) := by
        have := lt_div_succ_mul a.ip (2 ^ (w - b.cidr)) hsb
        have hx : (a.ip / 2 ^ (w - b.cidr) + 1) * 2 ^ (w - b.cidr)
            = a.ip / 2 ^ (w - b.cidr) * 2 ^ (w - b.cidr) + 2 ^ (w - b.cidr) := by ring
        omega
      have hstep := dvd_lt_step (Nat.dvd_of_mod_eq_zero ha3)
        (dvd_add (dvd_trans hdvd hdb) hdvd) hsa hlt
      simp only [rEnd, sz] at hstep ⊢
      omega
  · rintro ⟨hble, hend⟩
    simp only [rEnd, sz] at hend
    have hszle : (2 : Nat) ^ (w - a.cidr) ≤ 2 ^ (w - b.cidr) := by omega
    have hc : b.cidr ≤ a.cidr := by
      have := (Nat.pow_le_pow_iff_right (a := 2) (by norm_num)).mp hszle
      omega
    refine ⟨hc, ?_⟩
    have hdb : (2 : Nat) ^ (w - b.cidr) ∣ b.ip := Nat.dvd_of_mod_eq_zero hb3
    exact dvd_sandwich hsb hdb hble (by omega)

/-- On disjoint non-trivial intervals neither subset test succeeds. -/
theorem is_subset_of_false_of_gap (w : Nat) (a b : IpRange) (ha : WF w a) (hb : WF w b)
    (h : rEnd w a ≤ b.ip) :
    is_subset_of w a b = false ∧ is_subset_of w b a = false := by
  have hsa := sz_pos w a
  have hsb := sz_pos w b
  constructor
  · rw [← Bool.not_eq_true, is_subset_of_iff w a b ha hb]
    simp only [rEnd] at *
    omega
  · rw [← Bool.not_eq_true, is_subset_of_iff w b a hb ha]
    simp only [rEnd] at *
    omega

/-! ### Dyadic nesting: overlapping normalized ranges are nested -/

theorem dyadic_le (w : Nat) (a b : IpRange) (ha : WF w a) (hb : WF w b)
    (hs : sz w a ≤ sz w b) (h1 : a.ip < rEnd w b) (h2 : b.ip < rEnd w a) :
    b.ip ≤ a.ip ∧ rEnd w a ≤ rEnd w b := by
  have hdvd : sz w a ∣ sz w b := by
    unfold sz at *
    exact pow_dvd_pow 2 ((Nat.pow_le_pow_iff_right (by norm_num)).mp hs)
  have hdba : sz w a ∣ b.ip := dvd_trans hdvd (sz_dvd_ip w b hb)
  have hba : b.ip ≤ a.ip := by
    by_contra hcon
    push_neg at hcon
    have := dvd_lt_step (sz_dvd_ip w a ha) hdba (sz_pos w a) hcon
    unfold rEnd at h2
    omega
  refine ⟨hba, ?_⟩
  have hx := dvd_lt_step (x := a.ip) (y := b.ip + sz w b) (sz_dvd_ip w a ha)
    (dvd_add hdba hdvd) (sz_pos w a) (by unfold rEnd at h1; omega)
  unfold rEnd
  omega

theorem dyadic (w : Nat) (a b : IpRange) (ha : WF w a) (hb : WF w b)
    (h1 : a.ip < rEnd w b) (h2 : b.ip < rEnd w a) :
    (b.ip ≤ a.ip ∧ rEnd w a ≤ rEnd w b) ∨ (a.ip ≤ b.ip ∧ rEnd w b ≤ rEnd w a) := by
  rcases le_total (sz w a) (sz w b) with hs | hs
  · exact Or.inl (dyadic_le w a b ha hb hs h1 h2)
  · exact Or.inr (dyadic_le w b a hb ha hs h2 h1)

/-! ### Characterization of `reduce_cidr_by_one` and `merge_with` -/

theorem reduce_eq (w : Nat) (r : IpRange) (h1 : r.ip < 2 ^ w) (h2 : r.cidr ≤ w)
    (h3 : 0 < r.cidr) :
    reduce_cidr_by_one w r
      = ⟨r.ip / 2 ^ (w - r.cidr + 1) * 2 ^ (w - r.cidr + 1), r.cidr - 1⟩ := by
  obtain ⟨ipv, cv⟩ := r
  cases cv with
  | zero => simp at h3
  | succ n =>
    show normalize w ⟨ipv, n⟩ = _
    have h1' : (⟨ipv, n⟩ : IpRange).ip < 2 ^ w := h1
    rw [normalize_eq w ⟨ipv, n⟩ h1' (by simp at h2 ⊢; omega)]
    have he : w - (n + 1) + 1 = w - n := by simp at h2; omega
    simp only at he ⊢
    rw [he]
    simp

theorem two_sz (w : Nat) (r : IpRange) (h2 : r.cidr ≤ w) (h3 : 0 < r.cidr) :
    2 * sz w r = 2 ^ (w - r.cidr + 1) := by
  unfold sz
  rw [pow_succ]
  ring

theorem parent_shape (w : Nat) (a : IpRange) (ha : WF w a) (h0 : 0 < a.cidr)
    (hal : a.ip % (2 * sz w a) = 0) :
    WF w ⟨a.ip, a.cidr - 1⟩ ∧ sz w ⟨a.ip, a.cidr - 1⟩ = 2 * sz w a ∧
      rEnd w ⟨a.ip, a.cidr - 1⟩ = a.ip + 2 * sz w a := by
  obtain ⟨h1, h2, _⟩ := ha
  have hsz : sz w ⟨a.ip, a.cidr - 1⟩ = 2 * sz w a := by
    show (2 : Nat) ^ (w - (a.cidr - 1)) = 2 * 2 ^ (w - a.cidr)
    rw [show w - (a.cidr - 1) = (w - a.cidr) + 1 by omega, pow_succ]
    ring
  refine ⟨⟨h1, by simp; omega, ?_⟩, hsz, ?_⟩
  · rw [hsz]
    exact hal
  · unfold rEnd
    rw [hsz]

theorem cidr_pos_of_gap (w : Nat) (a b : IpRange) (ha : WF w a) (hb : WF w b)
    (hgap : rEnd w a ≤ b.ip) (hc : a.cidr = b.cidr) : 0 < a.cidr := by
  by_contra h0'
  push_neg at h0'
  have hc0 : a.cidr = 0 := by omega
  have haip : a.ip = 0 := by
    have hm := ha.2.2
    have hszw : sz w a = 2 ^ w := by
      unfold sz
      congr 1
      omega
    rwa [hszw, Nat.mod_eq_of_lt ha.1] at hm
  have hbip : b.ip = 0 := by
    have hm := hb.2.2
    have hszw : sz w b = 2 ^ w := by
      unfold sz
      congr 1
      omega
    rwa [hszw, Nat.mod_eq_of_lt hb.1] at hm
  have hsz := sz_pos w a
  unfold rEnd at hgap
  omega

/-- Merge when the second range is a proper subrange of the first:
the source returns the superset (the first). -/
theorem merge_of_supset (w : Nat) (a b : IpRange) (ha : WF w a) (hb : WF w b)
    (hlt : a.ip < b.ip) (hend : rEnd w b ≤ rEnd w a) :
    merge_with w a b = some a := by
  unfold merge_with
  have h1 : is_subset_of w a b = false := by
    rw [← Bool.not_eq_true, is_subset_of_iff w a b ha hb]
    omega
  have h2 : is_subset_of w b a = true := by
    rw [is_subset_of_iff w b a hb ha]
    exact ⟨le_of_lt hlt, hend⟩
  simp [h1, h2]

/-- Merge of two ranges with the same base address always succeeds and yields
the one with the larger interval; this is the shape reached in the exact-match
branch of `add`. -/
theorem merge_same_ip (w : Nat) (a b : IpRange) (ha : WF w a) (hb : WF w b)
    (hip : a.ip = b.ip) :
    ∃ c, merge_with w a b = some c ∧ (c = a ∨ c = b) ∧ c.ip = a.ip ∧
      rEnd w a ≤ rEnd w c ∧ rEnd w b ≤ rEnd w c := by
  unfold merge_with
  by_cases h1 : is_subset_of w a b = true
  · have hab := (is_subset_of_iff w a b ha hb).mp h1
    exact ⟨b, by simp [h1], Or.inr rfl, hip.symm, hab.2, le_refl _⟩
  · have h1' : is_subset_of w a b = false := by
      rwa [Bool.not_eq_true] at h1
    have hnot : ¬ rEnd w a ≤ rEnd w b := by
      intro hcon
      exact h1 ((is_subset_of_iff w a b ha hb).mpr ⟨le_of_eq hip.symm, hcon⟩)
    have h2 : is_subset_of w b a = true := by
      rw [is_subset_of_iff w b a hb ha]
      exact ⟨le_of_eq hip, by omega⟩
    exact ⟨a, by simp [h1', h2], Or.inl rfl, rfl, le_refl _, by omega⟩

/-- Sibling merge: adjacent equal-length halves of an aligned parent merge to
the parent. -/
theorem merge_sibling (w : Nat) (a b : IpRange) (ha : WF w a) (hb : WF w b)
    (hc : a.cidr = b.cidr) (hadj : b.ip = rEnd w a)
    (hal : a.ip % (2 * sz w a) = 0) :
    merge_with w a b = some ⟨a.ip, a.cidr - 1⟩ := by
  have hgap : rEnd w a ≤ b.ip := le_of_eq hadj.symm
  have h0 : 0 < a.cidr := cidr_pos_of_gap w a b ha hb hgap hc
  obtain ⟨hf1, hf2⟩ := is_subset_of_false_of_gap w a b ha hb hgap
  unfold merge_with
  rw [hf1, hf2]
  simp only [Bool.false_eq_true, if_false]
  rw [if_neg (by omega : ¬ a.cidr ≠ b.cidr)]
  have hra := reduce_eq w a ha.1 ha.2.1 h0
  have hrb := reduce_eq w b hb.1 hb.2.1 (by omega)
  have hm2 : 2 * sz w a = 2 ^ (w - a.cidr + 1) := two_sz w a ha.2.1 h0
  have hmm : (2 : Nat) ^ (w - b.cidr + 1) = 2 ^ (w - a.cidr + 1) := by
    rw [hc]
  have hszpos := sz_pos w a
  have hmpos : (0 : Nat) < 2 ^ (w - a.cidr + 1) := by positivity
  have hdvd : (2 : Nat) ^ (w - a.cidr + 1) ∣ a.ip := by
    rw [← hm2]
    exact Nat.dvd_of_mod_eq_zero hal
  have haq : a.ip / 2 ^ (w - a.cidr + 1) * 2 ^ (w - a.cidr + 1) = a.ip :=
    Nat.div_mul_cancel hdvd
  have hbq : b.ip / 2 ^ (w - a.cidr + 1) * 2 ^ (w - a.cidr + 1) = a.ip := by
    apply dvd_sandwich hmpos hdvd
    · unfold rEnd at hadj
      omega
    · unfold rEnd at hadj
      have hszlt : sz w a < 2 ^ (w - a.cidr + 1) := by omega
      omega
  rw [if_pos]
  · rw [hra, haq]
  · rw [hra, hrb, hmm]
    simp only
    rw [haq, hbq]

/-- No merge across a gap unless the two are exactly the sibling halves of an
aligned parent. -/
theorem merge_none_of_gap (w : Nat) (a b : IpRange) (ha : WF w a) (hb : WF w b)
    (hgap : rEnd w a ≤ b.ip)
    (hns : ¬(a.cidr = b.cidr ∧ b.ip = rEnd w a ∧ a.ip % (2 * sz w a) = 0)) :
    merge_with w a b = none := by
  obtain ⟨hf1, hf2⟩ := is_subset_of_false_of_gap w a b ha hb hgap
  unfold merge_with
  rw [hf1, hf2]
  simp only [Bool.false_eq_true, if_false]
  by_cases hc : a.cidr = b.cidr
  · rw [if_neg (by omega : ¬ a.cidr ≠ b.cidr)]
    have h0 : 0 < a.cidr := cidr_pos_of_gap w a b ha hb hgap hc
    have hra := reduce_eq w a ha.1 ha.2.1 h0
    have hrb := reduce_eq w b hb.1 hb.2.1 (by omega)
    rw [if_neg]
    rw [hra, hrb]
    simp only
    intro heq
    rw [hc] at heq
    set m := (2 : Nat) ^ (w - b.cidr + 1) with hmdef
    have hm2 : 2 * sz w a = m := by
      rw [two_sz w a ha.2.1 h0, hc]
    have hszeq : sz w a = sz w b := by
      unfold sz
      rw [hc]
    have hszpos := sz_pos w a
    have hmpos : (0 : Nat) < m := by positivity
    set P := b.ip / m * m with hPdef
    have hPa : a.ip / m * m = P := heq
    have hPlea : P ≤ a.ip := by
      rw [← hPa]
      exact Nat.div_mul_le_self _ _
    have hPleb : P ≤ b.ip := Nat.div_mul_le_self _ _
    have hblt : b.ip < P + m := by
      have := lt_div_succ_mul b.ip m hmpos
      have hx : (b.ip / m + 1) * m = b.ip / m * m + m := by ring
      omega
    have halt : a.ip < P + m := by
      have := lt_div_succ_mul a.ip m hmpos
      have hx : (a.ip / m + 1) * m = a.ip / m * m + m := by ring
      omega
    have hsab : sz w a ∣ a.ip := sz_dvd_ip w a ha
    have hsbb : sz w a ∣ b.ip := hszeq ▸ sz_dvd_ip w b hb
    have hsm : sz w a ∣ m := ⟨2, by omega⟩
    have hmP : m ∣ P := dvd_mul_left m (b.ip / m)
    have hsP : sz w a ∣ P := dvd_trans hsm hmP
    have hab : a.ip < b.ip := by
      have := sz_pos w a
      unfold rEnd at hgap
      omega
    have hstep : a.ip + sz w a ≤ b.ip := dvd_lt_step hsab hsbb hszpos hab
    have haP : a.ip = P := by
      rcases Nat.eq_or_lt_of_le hPlea with heq' | hlt'
      · exact heq'.symm
      · have h1 := dvd_lt_step hsP hsab hszpos hlt'
        omega
    have hbadj : b.ip = rEnd w a := by
      unfold rEnd
      have hbP : b.ip = P + sz w a := by
        rcases Nat.eq_or_lt_of_le hPleb with heq' | hlt'
        · omega
        · have hs := dvd_lt_step hsP hsbb hszpos hlt'
          obtain ⟨k, hk⟩ := Nat.dvd_sub' hsbb hsP
          have hk1 : k = 1 := by
            rcases k with _ | _ | k
            · omega
            · rfl
            · exfalso
              have hge2 : sz w a * 2 ≤ sz w a * (k + 1 + 1) :=
                Nat.mul_le_mul_left _ (by omega)
              omega
          rw [hk1, Nat.mul_one] at hk
          omega
      omega
    have hal : a.ip % (2 * sz w a) = 0 := by
      rw [hm2, haP, hPdef]
      exact Nat.mul_mod_left _ _
    exact hns ⟨hc, hbadj, hal⟩
  · rw [if_pos hc]

/-- Inversion of a successful merge across a gap: it must be the sibling case. -/
theorem merge_gap_inv (w : Nat) (a b : IpRange) (ha : WF w a) (hb : WF w b)
    (hgap : rEnd w a ≤ b.ip) (r : IpRange)
    (hm : merge_with w a b = some r) :
    a.cidr = b.cidr ∧ b.ip = rEnd w a ∧ a.ip % (2 * sz w a) = 0 ∧
      r = ⟨a.ip, a.cidr - 1⟩ := by
  by_cases hs : a.cidr = b.cidr ∧ b.ip = rEnd w a ∧ a.ip % (2 * sz w a) = 0
  · obtain ⟨h1, h2, h3⟩ := hs
    rw [merge_sibling w a b ha hb h1 h2 h3] at hm
    injection hm with hm
    exact ⟨h1, h2, h3, hm.symm⟩
  · rw [merge_none_of_gap w a b ha hb hgap hs] at hm
    cases hm

/-! ### Characterization of the binary search model -/

theorem binary_search_ok (key : Nat) (l : List IpRange) (idx : Nat)
    (h : binary_search key l = .ok idx) :
    idx < l.length ∧ (l.getD idx d0).ip = key := by
  induction l generalizing idx with
  | nil => simp [binary_search] at h
  | cons x xs ih =>
    unfold binary_search at h
    by_cases h1 : x.ip < key
    · rw [if_pos h1] at h
      cases hx : binary_search key xs with
      | ok i =>
        rw [hx] at h
        injection h with h
        subst h
        obtain ⟨hlt, hval⟩ := ih i hx
        refine ⟨by simp; omega, ?_⟩
        simpa using hval
      | error i =>
        rw [hx] at h
        cases h
    · rw [if_neg h1] at h
      by_cases h2 : x.ip = key
      · rw [if_pos h2] at h
        injection h with h
        subst h
        exact ⟨by simp, h2⟩
      · rw [if_neg h2] at h
        cases h

theorem binary_search_err (key : Nat) (l : List IpRange) (idx : Nat)
    (h : binary_search key l = .error idx) :
    idx ≤ l.length ∧ (∀ j, j < idx → (l.getD j d0).ip < key) ∧
      (idx < l.length → key < (l.getD idx d0).ip) := by
  induction l generalizing idx with
  | nil =>
    unfold binary_search at h
    injection h with h
    subst h
    exact ⟨by simp, by omega, by simp⟩
  | cons x xs ih =>
    unfold binary_search at h
    by_cases h1 : x.ip < key
    · rw [if_pos h1] at h
      cases hx : binary_search key xs with
      | ok i =>
        rw [hx] at h
        cases h
      | error i =>
        rw [hx] at h
        injection h with h
        subst h
        obtain ⟨hle, hlo, hhi⟩ := ih i hx
        refine ⟨by simp; omega, ?_, ?_⟩
        · intro j hj
          cases j with
          | zero => simpa using h1
          | succ j' => simpa using hlo j' (by omega)
        · intro hlen
          simpa using hhi (by simp at hlen; omega)
    · rw [if_neg h1] at h
      by_cases h2 : x.ip = key
      · rw [if_pos h2] at h
        cases h
      · rw [if_neg h2] at h
        injection h with h
        subst h
        refine ⟨by simp, by omega, ?_⟩
        intro _
        simp only [List.getD_cons_zero]
        omega

/-! ### List surgery helpers -/

theorem getD_append_length (A : List IpRange) (x : IpRange) (B : List IpRange) :
    (A ++ x :: B).getD A.length d0 = x := by
  rw [List.getD_append_right _ _ _ _ (le_refl _)]
  simp

theorem getD_append_lt (A : List IpRange) (B : List IpRange) (j : Nat) (hj : j < A.length) :
    (A ++ B).getD j d0 = A.getD j d0 :=
  List.getD_append _ _ _ _ hj

theorem set_append_length (A : List IpRange) (x : IpRange) (B : List IpRange) (r : IpRange) :
    (A ++ x :: B).set A.length r = A ++ r :: B := by
  rw [List.set_append, if_neg (by omega)]
  simp

theorem eraseIdx_append_length (A : List IpRange) (x : IpRange) (B : List IpRange) :
    (A ++ x :: B).eraseIdx A.length = A ++ B := by
  induction A with
  | nil => simp
  | cons a A ih => simp [List.eraseIdx_cons_succ, ih]

theorem collapseAt_append (A : List IpRange) (x y : IpRange) (B : List IpRange) (r : IpRange) :
    collapseAt (A ++ x :: y :: B) A.length r = A ++ r :: B := by
  unfold collapseAt
  rw [eraseIdx_append_length A x (y :: B), set_append_length A y B r]

theorem insertAt_append (A : List IpRange) (i : IpRange) (B : List IpRange) :
    insertAt A.length i (A ++ B) = A ++ i :: B := by
  induction A with
  | nil => rfl
  | cons a A ih => simp [insertAt, ih]

theorem insertAt_length (n : Nat) (a : IpRange) (l : List IpRange) :
    (insertAt n a l).length = l.length + 1 := by
  induction l generalizing n with
  | nil => cases n <;> rfl
  | cons x xs ih =>
    cases n with
    | zero => rfl
    | succ n' => simp [insertAt, ih]

/-! ### The PrefixSet invariant -/

/-- Sorted-and-disjoint relation: `a`'s interval ends at or before `b` starts. -/
def gapLe (w : Nat) (a b : IpRange) : Prop := rEnd w a ≤ b.ip

/-- Adjacent entries must not merge. -/
def mergeNone (w : Nat) (a b : IpRange) : Prop := merge_with w a b = none

def allWF (w : Nat) (l : List IpRange) : Prop := ∀ r ∈ l, WF w r

/-- The compaction invariant maintained by `add`: all entries well-formed and
normalized, intervals in strictly increasing disjoint order, and no two
adjacent entries mergeable. -/
def Inv (w : Nat) (l : List IpRange) : Prop :=
  allWF w l ∧ l.Chain' (gapLe w) ∧ l.Chain' (mergeNone w)

/-- Semantics: the set of addresses covered by some entry. -/
def memList (w : Nat) (a : Nat) (l : List IpRange) : Prop := ∃ r ∈ l, inR w a r

theorem chain_gap_pairwise (w : Nat) (l : List IpRange) (h : l.Chain' (gapLe w)) :
    l.Pairwise (gapLe w) := by
  haveI : IsTrans IpRange (gapLe w) := ⟨fun a b c hab hbc => by
    unfold gapLe rEnd at *
    have := sz_pos w b
    omega⟩
  exact List.chain'_iff_pairwise.mp h

theorem chain'_getD (R : IpRange → IpRange → Prop) (l : List IpRange) (j : Nat)
    (h : l.Chain' R) (hj : j + 1 < l.length) : R (l.getD j d0) (l.getD (j + 1) d0) := by
  rw [List.getD_eq_getElem l d0 (by omega), List.getD_eq_getElem l d0 hj]
  have := List.chain'_iff_get.mp h j (by omega)
  simpa [List.get_eq_getElem] using this

/-! ### Value-level unfolding equations for the cascading merge -/

theorem neighborMergeRight_val (w : Nat) (l : List IpRange) (idx : Nat) :
    (neighborMergeRight w l idx).1 =
      if idx + 1 < l.length then
        match merge_with w (l.getD idx d0) (l.getD (idx + 1) d0) with
        | some r => (neighborMergeGo w (collapseAt l idx r) idx).1
        | none => l
      else l := by
  rw [neighborMergeRight]
  by_cases h3 : idx + 1 < l.length
  · rw [dif_pos h3, if_pos h3]
    cases merge_with w (l.getD idx d0) (l.getD (idx + 1) d0) <;> rfl
  · rw [dif_neg h3, if_neg h3]

theorem neighborMergeGo_val (w : Nat) (l : List IpRange) (idx : Nat) :
    (neighborMergeGo w l idx).1 =
      if 0 < idx then
        match merge_with w (l.getD (idx - 1) d0) (l.getD idx d0) with
        | some r =>
          (neighborMergeRight w (neighborMergeGo w (collapseAt l (idx - 1) r) (idx - 1)).1 idx).1
        | none => (neighborMergeRight w l idx).1
      else (neighborMergeRight w l idx).1 := by
  rw [neighborMergeGo]
  by_cases h1 : 0 < idx
  · rw [dif_pos h1, if_pos h1]
    cases merge_with w (l.getD (idx - 1) d0) (l.getD idx d0) <;> rfl
  · rw [dif_neg h1, if_neg h1]

/-! ### `neighbor_merge` is the identity on invariant lists -/

theorem nmRight_of_inv (w : Nat) (l : List IpRange) (idx : Nat) (hinv : Inv w l) :
    (neighborMergeRight w l idx).1 = l := by
  rw [neighborMergeRight_val]
  by_cases h3 : idx + 1 < l.length
  · rw [if_pos h3]
    have hm : merge_with w (l.getD idx d0) (l.getD (idx + 1) d0) = none :=
      chain'_getD (mergeNone w) l idx hinv.2.2 h3
    rw [hm]
  · rw [if_neg h3]

theorem neighbor_merge_of_inv (w : Nat) (l : List IpRange) (idx : Nat) (hinv : Inv w l)
    (hidx : idx < l.length) :
    neighbor_merge w l idx = l := by
  unfold neighbor_merge
  rw [neighborMergeGo_val]
  by_cases h1 : 0 < idx
  · rw [if_pos h1]
    have hm : merge_with w (l.getD (idx - 1) d0) (l.getD idx d0) = none := by
      have := chain'_getD (mergeNone w) l (idx - 1) hinv.2.2 (by omega)
      simpa [show idx - 1 + 1 = idx by omega] using this
    rw [hm]
    exact nmRight_of_inv w l idx hinv
  · rw [if_neg h1]
    exact nmRight_of_inv w l idx hinv

/-! ### The intermediate state handled by the cascading merge -/

/-- Strict base-address order. -/
def ipLt (a b : IpRange) : Prop := a.ip < b.ip

/-- Interval containment. -/
def subInt (w : Nat) (a b : IpRange) : Prop := b.ip ≤ a.ip ∧ rEnd w a ≤ rEnd w b

/-- State reached during `neighbor_merge`: the list is `A ++ x :: B₁ ++ B₂`
with the working entry `x` at position `A.length`.  Entries of `B₁` are
strictly inside `x`; everything else is pairwise disjoint in order, and `A`
and `B₂` are internally non-mergeable. -/
structure NMpre (w : Nat) (A : List IpRange) (x : IpRange) (B₁ B₂ : List IpRange) : Prop where
  wfA : allWF w A
  wfx : WF w x
  wfB₁ : allWF w B₁
  wfB₂ : allWF w B₂
  sorted : (A ++ x :: (B₁ ++ B₂)).Pairwise ipLt
  insideB₁ : ∀ b ∈ B₁, subInt w b x
  gaps : (A ++ x :: B₂).Pairwise (gapLe w)
  chainA : A.Chain' (mergeNone w)
  chainB₂ : B₂.Chain' (mergeNone w)

theorem pairwise_mid_iff (R : IpRange → IpRange → Prop) (A : List IpRange) (x : IpRange)
    (Y : List IpRange) :
    (A ++ x :: Y).Pairwise R ↔
      A.Pairwise R ∧ Y.Pairwise R ∧ (∀ a ∈ A, R a x) ∧ (∀ y ∈ Y, R x y) ∧
        (∀ a ∈ A, ∀ y ∈ Y, R a y) := by
  rw [List.pairwise_append, List.pairwise_cons]
  constructor
  · rintro ⟨h1, ⟨h2a, h2b⟩, h3⟩
    exact ⟨h1, h2b, fun a ha => h3 a ha x (by simp), fun y hy => h2a y hy,
      fun a ha y hy => h3 a ha y (by simp [hy])⟩
  · rintro ⟨h1, h2, h3, h4, h5⟩
    refine ⟨h1, ⟨h4, h2⟩, ?_⟩
    intro a ha b hb
    rcases List.mem_cons.mp hb with rfl | hb'
    · exact h3 a ha
    · exact h5 a ha b hb'

theorem memList_append (w : Nat) (a : Nat) (L1 L2 : List IpRange) :
    memList w a (L1 ++ L2) ↔ memList w a L1 ∨ memList w a L2 := by
  unfold memList
  constructor
  · rintro ⟨r, hr, hin⟩
    rcases List.mem_append.mp hr with h | h
    · exact Or.inl ⟨r, h, hin⟩
    · exact Or.inr ⟨r, h, hin⟩
  · rintro (⟨r, hr, hin⟩ | ⟨r, hr, hin⟩)
    · exact ⟨r, List.mem_append.mpr (Or.inl hr), hin⟩
    · exact ⟨r, List.mem_append.mpr (Or.inr hr), hin⟩

theorem memList_cons (w : Nat) (a : Nat) (x : IpRange) (L : List IpRange) :
    memList w a (x :: L) ↔ inR w a x ∨ memList w a L := by
  unfold memList
  constructor
  · rintro ⟨r, hr, hin⟩
    rcases List.mem_cons.mp hr with rfl | hr'
    · exact Or.inl hin
    · exact Or.inr ⟨r, hr', hin⟩
  · rintro (h | ⟨r, hr, hin⟩)
    · exact ⟨x, by simp, h⟩
    · exact ⟨r, by simp [hr], hin⟩

theorem memList_nil (w : Nat) (a : Nat) : ¬ memList w a [] := by
  rintro ⟨r, hr, _⟩
  cases hr

/-- Splitting off the last element of a non-empty list. -/
theorem exists_dropLast (A : List IpRange) (h : A ≠ []) :
    ∃ A₀ p, A = A₀ ++ [p] := by
  induction A with
  | nil => exact absurd rfl h
  | cons a A ih =>
    cases A with
    | nil => exact ⟨[], a, rfl⟩
    | cons b B =>
      obtain ⟨A₀, p, hp⟩ := ih (by simp)
      exact ⟨a :: A₀, p, by simp [hp]⟩

/-! ### Transitions of the cascading merge -/

theorem sibling_facts (w : Nat) (p x : IpRange) (hp : WF w p) (hx : WF w x)
    (hc : p.cidr = x.cidr) (hadj : x.ip = rEnd w p) (hal : p.ip % (2 * sz w p) = 0) :
    WF w ⟨p.ip, p.cidr - 1⟩ ∧ rEnd w ⟨p.ip, p.cidr - 1⟩ = rEnd w x ∧
      (∀ a, inR w a ⟨p.ip, p.cidr - 1⟩ ↔ inR w a p ∨ inR w a x) := by
  have h0 : 0 < p.cidr := cidr_pos_of_gap w p x hp hx (le_of_eq hadj.symm) hc
  obtain ⟨hwf, hszr, hend⟩ := parent_shape w p hp h0 hal
  have hszx : sz w x = sz w p := by
    unfold sz
    rw [hc]
  have hendx : rEnd w ⟨p.ip, p.cidr - 1⟩ = rEnd w x := by
    unfold rEnd at *
    omega
  refine ⟨hwf, hendx, ?_⟩
  intro a
  unfold inR
  unfold rEnd at *
  simp only
  omega

theorem nmpre_left_sibling (w : Nat) (A₀ : List IpRange) (p x : IpRange)
    (B₁ B₂ : List IpRange) (hpre : NMpre w (A₀ ++ [p]) x B₁ B₂)
    (r : IpRange) (hm : merge_with w p x = some r) :
    r = ⟨p.ip, p.cidr - 1⟩ ∧ NMpre w A₀ r B₁ B₂ ∧ r.ip = p.ip ∧
      rEnd w r = rEnd w x ∧
      (∀ a, inR w a r ↔ inR w a p ∨ inR w a x) := by
  have hwfp : WF w p := hpre.wfA p (by simp)
  have hwfx := hpre.wfx
  have hmidg := (pairwise_mid_iff (gapLe w) (A₀ ++ [p]) x B₂).mp hpre.gaps
  have hgapx : gapLe w p x := hmidg.2.2.1 p (by simp)
  obtain ⟨hc, hadj, hal, hr⟩ := merge_gap_inv w p x hwfp hwfx hgapx r hm
  obtain ⟨hwfr, hendr, hinr⟩ := sibling_facts w p x hwfp hwfx hc hadj hal
  subst hr
  have hmids := (pairwise_mid_iff ipLt (A₀ ++ [p]) x (B₁ ++ B₂)).mp hpre.sorted
  have hpw_A0p : A₀.Pairwise ipLt ∧ ∀ a ∈ A₀, ipLt a p := by
    have := List.pairwise_append.mp hmids.1
    exact ⟨this.1, fun a ha => this.2.2 a ha p (by simp)⟩
  have hgw_A0p : A₀.Pairwise (gapLe w) ∧ ∀ a ∈ A₀, gapLe w a p := by
    have := List.pairwise_append.mp hmidg.1
    exact ⟨this.1, fun a ha => this.2.2 a ha p (by simp)⟩
  have hpx : p.ip < x.ip := by
    have := sz_pos w p
    unfold gapLe rEnd at hgapx
    omega
  refine ⟨rfl, ?_, rfl, hendr, hinr⟩
  refine ⟨fun a ha => hpre.wfA a (by simp [ha]), hwfr, hpre.wfB₁, hpre.wfB₂, ?_, ?_, ?_, ?_, ?_⟩
  · rw [pairwise_mid_iff]
    refine ⟨hpw_A0p.1, hmids.2.1, ?_, ?_, ?_⟩
    · intro a ha
      exact hpw_A0p.2 a ha
    · intro y hy
      have hxY : ipLt x y := hmids.2.2.2.1 y hy
      have : ipLt p x := hmids.2.2.1 p (by simp)
      unfold ipLt at *
      simp only
      omega
    · intro a ha y hy
      exact hmids.2.2.2.2 a (by simp [ha]) y hy
  · intro b hb
    have hsub := hpre.insideB₁ b hb
    unfold subInt at *
    constructor
    · simp only
      unfold gapLe rEnd at hgapx
      have := sz_pos w p
      omega
    · rw [hendr]
      exact hsub.2
  · rw [pairwise_mid_iff]
    refine ⟨hgw_A0p.1, hmidg.2.1, ?_, ?_, ?_⟩
    · intro a ha
      have := hgw_A0p.2 a ha
      unfold gapLe at *
      simpa using this
    · intro y hy
      have := hmidg.2.2.2.1 y hy
      unfold gapLe at *
      rw [hendr]
      exact this
    · intro a ha y hy
      exact hmidg.2.2.2.2 a (by simp [ha]) y hy
  · exact (List.chain'_append.mp hpre.chainA).1
  · exact hpre.chainB₂

theorem nmpre_swallow (w : Nat) (A : List IpRange) (x b : IpRange)
    (B₁' B₂ : List IpRange) (hpre : NMpre w A x (b :: B₁') B₂) :
    merge_with w x b = some x ∧ NMpre w A x B₁' B₂ := by
  have hsub := hpre.insideB₁ b (by simp)
  have hmids := (pairwise_mid_iff ipLt A x ((b :: B₁') ++ B₂)).mp hpre.sorted
  have hlt : x.ip < b.ip := hmids.2.2.2.1 b (by simp)
  have hm := merge_of_supset w x b hpre.wfx (hpre.wfB₁ b (by simp)) hlt hsub.2
  refine ⟨hm, ?_⟩
  have hsl : (A ++ x :: (B₁' ++ B₂)).Sublist (A ++ x :: ((b :: B₁') ++ B₂)) := by
    apply List.Sublist.append_left
    apply List.Sublist.cons₂
    simp only [List.cons_append]
    exact List.sublist_cons_self b (B₁' ++ B₂)
  exact ⟨hpre.wfA, hpre.wfx, fun r hr => hpre.wfB₁ r (by simp [hr]), hpre.wfB₂,
    hpre.sorted.sublist hsl, fun r hr => hpre.insideB₁ r (by simp [hr]),
    hpre.gaps, hpre.chainA, hpre.chainB₂⟩

theorem nmpre_right_sibling (w : Nat) (A : List IpRange) (x s : IpRange)
    (B₂' : List IpRange) (hpre : NMpre w A x [] (s :: B₂'))
    (r : IpRange) (hm : merge_with w x s = some r) :
    r = ⟨x.ip, x.cidr - 1⟩ ∧ NMpre w A r [] B₂' ∧ r.ip = x.ip ∧
      (∀ a, inR w a r ↔ inR w a x ∨ inR w a s) := by
  have hwfs : WF w s := hpre.wfB₂ s (by simp)
  have hmidg := (pairwise_mid_iff (gapLe w) A x (s :: B₂')).mp hpre.gaps
  have hgap : gapLe w x s := hmidg.2.2.2.1 s (by simp)
  obtain ⟨hc, hadj, hal, hr⟩ := merge_gap_inv w x s hpre.wfx hwfs hgap r hm
  obtain ⟨hwfr, hendr, hinr⟩ := sibling_facts w x s hpre.wfx hwfs hc hadj hal
  subst hr
  have hmids := (pairwise_mid_iff ipLt A x ([] ++ (s :: B₂'))).mp hpre.sorted
  refine ⟨rfl, ?_, rfl, hinr⟩
  refine ⟨hpre.wfA, hwfr, (by intro r hr; cases hr), fun r hr => hpre.wfB₂ r (by simp [hr]),
    ?_, (by intro b hb; cases hb), ?_, hpre.chainA, hpre.chainB₂.tail⟩
  · rw [pairwise_mid_iff]
    have hpwY := hmids.2.1
    refine ⟨hmids.1, ?_, ?_, ?_, ?_⟩
    · simp only [List.nil_append]
      exact (List.pairwise_cons.mp (by simpa using hpwY)).2
    · intro a ha
      have := hmids.2.2.1 a ha
      unfold ipLt at *
      simpa using this
    · intro y hy
      simp only [List.nil_append] at hy
      have := hmids.2.2.2.1 y (by simp [hy])
      unfold ipLt at *
      simpa using this
    · intro a ha y hy
      simp only [List.nil_append] at hy
      exact hmids.2.2.2.2 a ha y (by simp [hy])
  · rw [pairwise_mid_iff]
    have hpwB := List.pairwise_cons.mp hmidg.2.1
    refine ⟨hmidg.1, hpwB.2, ?_, ?_, ?_⟩
    · intro a ha
      have := hmidg.2.2.1 a ha
      unfold gapLe at *
      simpa using this
    · intro y hy
      have := hpwB.1 y hy
      unfold gapLe at *
      rw [hendr]
      exact this
    · intro a ha y hy
      exact hmidg.2.2.2.2 a ha y (by simp [hy])

theorem nmpre_final (w : Nat) (A : List IpRange) (x : IpRange) (B₂ : List IpRange)
    (hpre : NMpre w A x [] B₂)
    (hlA : ∀ p, A.getLast? = some p → merge_with w p x = none)
    (hhB : ∀ s, B₂.head? = some s → merge_with w x s = none) :
    Inv w (A ++ x :: B₂) := by
  refine ⟨?_, List.Pairwise.chain' hpre.gaps, ?_⟩
  · intro r hr
    rcases List.mem_append.mp hr with h | h
    · exact hpre.wfA r h
    · rcases List.mem_cons.mp h with rfl | h'
      · exact hpre.wfx
      · exact hpre.wfB₂ r h'
  · rw [List.chain'_append]
    refine ⟨hpre.chainA, ?_, ?_⟩
    · rw [List.chain'_cons']
      exact ⟨fun y hy => hhB y hy, hpre.chainB₂⟩
    · intro p hp y hy
      simp only [List.head?_cons, Option.mem_def, Option.some.injEq] at hy
      subst hy
      exact hlA p hp

/-! ### Conditional unfolding equations -/

theorem neighborMergeRight_val_some (w : Nat) (l : List IpRange) (idx : Nat) (r : IpRange)
    (hg : idx + 1 < l.length)
    (hm : merge_with w (l.getD idx d0) (l.getD (idx + 1) d0) = some r) :
    (neighborMergeRight w l idx).1 = (neighborMergeGo w (collapseAt l idx r) idx).1 := by
  rw [neighborMergeRight_val, if_pos hg, hm]

theorem neighborMergeRight_val_none (w : Nat) (l : List IpRange) (idx : Nat)
    (hg : idx + 1 < l.length)
    (hm : merge_with w (l.getD idx d0) (l.getD (idx + 1) d0) = none) :
    (neighborMergeRight w l idx).1 = l := by
  rw [neighborMergeRight_val, if_pos hg, hm]

theorem neighborMergeRight_val_stop (w : Nat) (l : List IpRange) (idx : Nat)
    (hg : ¬ (idx + 1 < l.length)) :
    (neighborMergeRight w l idx).1 = l := by
  rw [neighborMergeRight_val, if_neg hg]

theorem neighborMergeGo_val_some (w : Nat) (l : List IpRange) (idx : Nat) (r : IpRange)
    (h1 : 0 < idx)
    (hm : merge_with w (l.getD (idx - 1) d0) (l.getD idx d0) = some r) :
    (neighborMergeGo w l idx).1 =
      (neighborMergeRight w (neighborMergeGo w (collapseAt l (idx - 1) r) (idx - 1)).1 idx).1 := by
  rw [neighborMergeGo_val, if_pos h1, hm]

theorem neighborMergeGo_val_none (w : Nat) (l : List IpRange) (idx : Nat)
    (h1 : 0 < idx)
    (hm : merge_with w (l.getD (idx - 1) d0) (l.getD idx d0) = none) :
    (neighborMergeGo w l idx).1 = (neighborMergeRight w l idx).1 := by
  rw [neighborMergeGo_val, if_pos h1, hm]

theorem neighborMergeGo_val_zero (w : Nat) (l : List IpRange) :
    (neighborMergeGo w l 0).1 = (neighborMergeRight w l 0).1 := by
  rw [neighborMergeGo_val, if_neg (by omega)]

theorem getD_append_succ (A : List IpRange) (x y : IpRange) (B : List IpRange) :
    (A ++ x :: y :: B).getD (A.length + 1) d0 = y := by
  have h : A ++ x :: y :: B = (A ++ [x]) ++ y :: B := by simp
  rw [h, show A.length + 1 = (A ++ [x]).length by simp]
  exact getD_append_length _ _ _

/-- Main lemma on the cascading merge: from any intermediate state described
by `NMpre`, both phases restore the full invariant and preserve the covered
address set.  The right phase additionally assumes the left neighbor pair was
already checked. -/
theorem nm_combined (w : Nat) (n : Nat) :
    (∀ (A : List IpRange) (x : IpRange) (B₁ B₂ : List IpRange),
        (A ++ x :: (B₁ ++ B₂)).length + A.length ≤ n →
        NMpre w A x B₁ B₂ →
        (∀ p, A.getLast? = some p → merge_with w p x = none) →
        Inv w ((neighborMergeRight w (A ++ x :: (B₁ ++ B₂)) A.length).1) ∧
          ∀ a, memList w a ((neighborMergeRight w (A ++ x :: (B₁ ++ B₂)) A.length).1) ↔
            memList w a (A ++ x :: (B₁ ++ B₂))) ∧
    (∀ (A : List IpRange) (x : IpRange) (B₁ B₂ : List IpRange),
        (A ++ x :: (B₁ ++ B₂)).length + A.length ≤ n →
        NMpre w A x B₁ B₂ →
        Inv w ((neighborMergeGo w (A ++ x :: (B₁ ++ B₂)) A.length).1) ∧
          ∀ a, memList w a ((neighborMergeGo w (A ++ x :: (B₁ ++ B₂)) A.length).1) ↔
            memList w a (A ++ x :: (B₁ ++ B₂))) := by
  have IH : ∀ m, m < n →
      (∀ (A : List IpRange) (x : IpRange) (B₁ B₂ : List IpRange),
          (A ++ x :: (B₁ ++ B₂)).length + A.length ≤ m →
          NMpre w A x B₁ B₂ →
          (∀ p, A.getLast? = some p → merge_with w p x = none) →
          Inv w ((neighborMergeRight w (A ++ x :: (B₁ ++ B₂)) A.length).1) ∧
            ∀ a, memList w a ((neighborMergeRight w (A ++ x :: (B₁ ++ B₂)) A.length).1) ↔
              memList w a (A ++ x :: (B₁ ++ B₂))) ∧
      (∀ (A : List IpRange) (x : IpRange) (B₁ B₂ : List IpRange),
          (A ++ x :: (B₁ ++ B₂)).length + A.length ≤ m →
          NMpre w A x B₁ B₂ →
          Inv w ((neighborMergeGo w (A ++ x :: (B₁ ++ B₂)) A.length).1) ∧
            ∀ a, memList w a ((neighborMergeGo w (A ++ x :: (B₁ ++ B₂)) A.length).1) ↔
              memList w a (A ++ x :: (B₁ ++ B₂))) :=
    fun m _ => nm_combined w m
  have hright : ∀ (A : List IpRange) (x : IpRange) (B₁ B₂ : List IpRange),
      (A ++ x :: (B₁ ++ B₂)).length + A.length ≤ n →
      NMpre w A x B₁ B₂ →
      (∀ p, A.getLast? = some p → merge_with w p x = none) →
      Inv w ((neighborMergeRight w (A ++ x :: (B₁ ++ B₂)) A.length).1) ∧
        ∀ a, memList w a ((neighborMergeRight w (A ++ x :: (B₁ ++ B₂)) A.length).1) ↔
          memList w a (A ++ x :: (B₁ ++ B₂)) := by
    intro A x B₁ B₂ hn hpre hlast
    have hnpos : 0 < n := by
      simp only [List.length_append, List.length_cons] at hn
      omega
    by_cases hg : A.length + 1 < (A ++ x :: (B₁ ++ B₂)).length
    · cases B₁ with
      | cons b B₁' =>
        simp only [List.cons_append] at hg hpre ⊢
        have hgx : (A ++ x :: b :: (B₁' ++ B₂)).getD A.length d0 = x :=
          getD_append_length A x (b :: (B₁' ++ B₂))
        have hgb : (A ++ x :: b :: (B₁' ++ B₂)).getD (A.length + 1) d0 = b :=
          getD_append_succ A x b (B₁' ++ B₂)
        obtain ⟨hm, hpre'⟩ := nmpre_swallow w A x b B₁' B₂ hpre
        have hmm : merge_with w ((A ++ x :: b :: (B₁' ++ B₂)).getD A.length d0)
            ((A ++ x :: b :: (B₁' ++ B₂)).getD (A.length + 1) d0) = some x := by
          rw [hgx, hgb]
          exact hm
        rw [neighborMergeRight_val_some w _ A.length x hg hmm,
          collapseAt_append A x b (B₁' ++ B₂) x]
        have hGo := (IH (n - 1) (by omega)).2 A x B₁' B₂
          (by simp only [List.length_append, List.length_cons] at hn ⊢; omega) hpre'
        refine ⟨hGo.1, fun a => ?_⟩
        rw [hGo.2 a]
        rw [memList_append, memList_append, memList_cons, memList_cons, memList_cons]
        have hsub := hpre.insideB₁ b (by simp)
        have himp : inR w a b → inR w a x := fun h =>
          ⟨le_trans hsub.1 h.1, lt_of_lt_of_le h.2 hsub.2⟩
        tauto
      | nil =>
        simp only [List.nil_append] at hg hpre ⊢
        cases B₂ with
        | nil => simp at hg
        | cons s B₂' =>
          have hgx : (A ++ x :: s :: B₂').getD A.length d0 = x :=
            getD_append_length A x (s :: B₂')
          have hgs : (A ++ x :: s :: B₂').getD (A.length + 1) d0 = s :=
            getD_append_succ A x s B₂'
          cases hm : merge_with w x s with
          | some r =>
            obtain ⟨hrp, hpre', hrip, hinr⟩ := nmpre_right_sibling w A x s B₂' hpre r hm
            have hmm : merge_with w ((A ++ x :: s :: B₂').getD A.length d0)
                ((A ++ x :: s :: B₂').getD (A.length + 1) d0) = some r := by
              rw [hgx, hgs]
              exact hm
            rw [neighborMergeRight_val_some w _ A.length r hg hmm,
              collapseAt_append A x s B₂' r]
            have hGo := (IH (n - 1) (by omega)).2 A r [] B₂'
              (by simp only [List.length_append, List.length_cons, List.nil_append] at hn ⊢; omega)
              hpre'
            simp only [List.nil_append] at hGo
            refine ⟨hGo.1, fun a => ?_⟩
            rw [hGo.2 a]
            rw [memList_append, memList_append, memList_cons, memList_cons, memList_cons]
            have := hinr a
            tauto
          | none =>
            have hmm : merge_with w ((A ++ x :: s :: B₂').getD A.length d0)
                ((A ++ x :: s :: B₂').getD (A.length + 1) d0) = none := by
              rw [hgx, hgs]
              exact hm
            rw [neighborMergeRight_val_none w _ A.length hg hmm]
            refine ⟨?_, fun a => Iff.rfl⟩
            exact nmpre_final w A x (s :: B₂') hpre hlast
              (by intro s' hs'; simp at hs'; subst hs'; exact hm)
    · rw [neighborMergeRight_val_stop w _ A.length hg]
      have hB1 : B₁ = [] := by
        apply List.length_eq_zero.mp
        simp only [List.length_append, List.length_cons] at hg
        omega
      have hB2 : B₂ = [] := by
        apply List.length_eq_zero.mp
        simp only [List.length_append, List.length_cons] at hg
        omega
      subst hB1
      subst hB2
      refine ⟨?_, fun a => Iff.rfl⟩
      have := nmpre_final w A x [] (by simpa using hpre) hlast
        (by intro s hs; simp at hs)
      simpa using this
  refine ⟨hright, ?_⟩
  intro A x B₁ B₂ hn hpre
  by_cases hA : A = []
  · subst hA
    have h0 : ([] : List IpRange).length = 0 := rfl
    rw [h0, neighborMergeGo_val_zero]
    have := hright [] x B₁ B₂ (by simpa using hn) hpre (by intro p hp; simp at hp)
    simpa using this
  · obtain ⟨A₀, p, rfl⟩ := exists_dropLast A hA
    have hnpos : 0 < n := by
      simp only [List.length_append, List.length_cons] at hn
      omega
    have hform : (A₀ ++ [p]) ++ x :: (B₁ ++ B₂) = A₀ ++ p :: x :: (B₁ ++ B₂) := by simp
    have hlen1 : (A₀ ++ [p]).length = A₀.length + 1 := by simp
    have hgp : ((A₀ ++ [p]) ++ x :: (B₁ ++ B₂)).getD ((A₀ ++ [p]).length - 1) d0 = p := by
      rw [hform, hlen1]
      simpa using getD_append_length A₀ p (x :: (B₁ ++ B₂))
    have hgx : ((A₀ ++ [p]) ++ x :: (B₁ ++ B₂)).getD (A₀ ++ [p]).length d0 = x := by
      rw [hform, hlen1]
      exact getD_append_succ A₀ p x (B₁ ++ B₂)
    cases hm : merge_with w p x with
    | some r =>
      obtain ⟨hrp, hpre', hrip, hrend, hinr⟩ := nmpre_left_sibling w A₀ p x B₁ B₂ hpre r hm
      have hmm : merge_with w (((A₀ ++ [p]) ++ x :: (B₁ ++ B₂)).getD ((A₀ ++ [p]).length - 1) d0)
          (((A₀ ++ [p]) ++ x :: (B₁ ++ B₂)).getD (A₀ ++ [p]).length d0) = some r := by
        rw [hgp, hgx]
        exact hm
      rw [neighborMergeGo_val_some w _ _ r (by simp) hmm]
      have hcol : collapseAt ((A₀ ++ [p]) ++ x :: (B₁ ++ B₂)) ((A₀ ++ [p]).length - 1) r
          = A₀ ++ r :: (B₁ ++ B₂) := by
        rw [hform, hlen1]
        simpa using collapseAt_append A₀ p x (B₁ ++ B₂) r
      rw [hcol, show (A₀ ++ [p]).length - 1 = A₀.length by simp]
      have hGo := (IH (n - 1) (by omega)).2 A₀ r B₁ B₂
        (by simp only [List.length_append, List.length_cons] at hn ⊢; omega) hpre'
      rw [nmRight_of_inv w _ (A₀ ++ [p]).length hGo.1]
      refine ⟨hGo.1, fun a => ?_⟩
      rw [hGo.2 a, hform]
      rw [memList_append, memList_append, memList_cons, memList_cons, memList_cons]
      have := hinr a
      tauto
    | none =>
      have hmm : merge_with w (((A₀ ++ [p]) ++ x :: (B₁ ++ B₂)).getD ((A₀ ++ [p]).length - 1) d0)
          (((A₀ ++ [p]) ++ x :: (B₁ ++ B₂)).getD (A₀ ++ [p]).length d0) = none := by
        rw [hgp, hgx]
        exact hm
      rw [neighborMergeGo_val_none w _ _ (by simp) hmm]
      exact hright (A₀ ++ [p]) x B₁ B₂ hn hpre (by
        intro q hq
        rw [List.getLast?_concat] at hq
        injection hq with hq
        subst hq
        exact hm)
termination_by n

/-- Entry point of the cascading merge from an `NMpre` state. -/
theorem neighbor_merge_main (w : Nat) (A : List IpRange) (x : IpRange) (B₁ B₂ : List IpRange)
    (hpre : NMpre w A x B₁ B₂) :
    Inv w (neighbor_merge w (A ++ x :: (B₁ ++ B₂)) A.length) ∧
      ∀ a, memList w a (neighbor_merge w (A ++ x :: (B₁ ++ B₂)) A.length) ↔
        memList w a (A ++ x :: (B₁ ++ B₂)) :=
  (nm_combined w ((A ++ x :: (B₁ ++ B₂)).length + A.length)).2 A x B₁ B₂ (le_refl _) hpre

/-- The case where the freshly inserted entry is strictly inside its immediate
predecessor: the merge cascade re-absorbs it and returns the original list. -/
theorem neighbor_merge_sub (w : Nat) (A₀ : List IpRange) (p x : IpRange) (B : List IpRange)
    (hinv : Inv w (A₀ ++ p :: B)) (hwfx : WF w x)
    (hlt : p.ip < x.ip) (hend : rEnd w x ≤ rEnd w p) :
    neighbor_merge w (A₀ ++ p :: x :: B) (A₀.length + 1) = A₀ ++ p :: B := by
  have hwfp : WF w p := hinv.1 p (by simp)
  have hm : merge_with w p x = some p := merge_of_supset w p x hwfp hwfx hlt hend
  have hgp : (A₀ ++ p :: x :: B).getD (A₀.length + 1 - 1) d0 = p := by
    simpa using getD_append_length A₀ p (x :: B)
  have hgx : (A₀ ++ p :: x :: B).getD (A₀.length + 1) d0 = x :=
    getD_append_succ A₀ p x B
  have hmm : merge_with w ((A₀ ++ p :: x :: B).getD (A₀.length + 1 - 1) d0)
      ((A₀ ++ p :: x :: B).getD (A₀.length + 1) d0) = some p := by
    rw [hgp, hgx]
    exact hm
  unfold neighbor_merge
  rw [neighborMergeGo_val_some w _ _ p (by omega) hmm]
  have hcol : collapseAt (A₀ ++ p :: x :: B) (A₀.length + 1 - 1) p = A₀ ++ p :: B := by
    simpa using collapseAt_append A₀ p x B p
  rw [hcol, show A₀.length + 1 - 1 = A₀.length by omega]
  have hid : (neighborMergeGo w (A₀ ++ p :: B) A₀.length).1 = A₀ ++ p :: B :=
    neighbor_merge_of_inv w (A₀ ++ p :: B) A₀.length hinv (by simp)
  rw [hid]
  exact nmRight_of_inv w _ (A₀.length + 1) hinv

/-! ### Building an `NMpre` state for `add` -/

theorem gapLe_ipLt (w : Nat) (a b : IpRange) (h : gapLe w a b) : ipLt a b := by
  have := sz_pos w a
  unfold gapLe rEnd at h
  unfold ipLt
  omega

theorem dropWhile_ge (w : Nat) (t : Nat) (B : List IpRange) (hs : B.Pairwise ipLt)
    (b : IpRange) (hb : b ∈ B.dropWhile (fun r => decide (r.ip < t))) : t ≤ b.ip := by
  induction B with
  | nil => cases hb
  | cons y Y ih =>
    rw [List.dropWhile_cons] at hb
    by_cases hy : y.ip < t
    · rw [if_pos (by simpa using hy)] at hb
      exact ih (List.Pairwise.of_cons hs) hb
    · rw [if_neg (by simpa using hy)] at hb
      rcases List.mem_cons.mp hb with rfl | hb'
      · omega
      · have := (List.pairwise_cons.mp hs).1 b hb'
        unfold ipLt at this
        omega

theorem exists_decomp (l : List IpRange) (idx : Nat) (h : idx < l.length) :
    ∃ A e B, l = A ++ e :: B ∧ A.length = idx := by
  induction l generalizing idx with
  | nil => simp at h
  | cons x xs ih =>
    cases idx with
    | zero => exact ⟨[], x, xs, rfl, rfl⟩
    | succ j =>
      obtain ⟨A, e, B, hl, hA⟩ := ih j (by simpa using h)
      exact ⟨x :: A, e, B, by simp [hl], by simp [hA]⟩

theorem chain'_suffix (R : IpRange → IpRange → Prop) (l₁ l₂ : List IpRange)
    (h : l₁ <:+ l₂) (hc : l₂.Chain' R) : l₁.Chain' R := by
  obtain ⟨pre, rfl⟩ := h
  exact (List.chain'_append.mp hc).2.1

/-- From disjoint sorted surroundings, split the successors at the end of `x`
and obtain the `NMpre` state from which the cascade starts. -/
theorem nmpre_build (w : Nat) (A : List IpRange) (x : IpRange) (B : List IpRange)
    (hwfA : allWF w A) (hwfB : allWF w B) (hwfx : WF w x)
    (hpwA : A.Pairwise (gapLe w)) (hpwB : B.Pairwise (gapLe w))
    (hcross : ∀ a ∈ A, ∀ b ∈ B, gapLe w a b)
    (hchA : A.Chain' (mergeNone w)) (hchB : B.Chain' (mergeNone w))
    (hAx : ∀ a ∈ A, gapLe w a x) (hxB : ∀ b ∈ B, x.ip < b.ip) :
    NMpre w A x (B.takeWhile (fun b => decide (b.ip < rEnd w x)))
      (B.dropWhile (fun b => decide (b.ip < rEnd w x))) ∧
      B.takeWhile (fun b => decide (b.ip < rEnd w x)) ++
        B.dropWhile (fun b => decide (b.ip < rEnd w x)) = B := by
  set P : IpRange → Bool := fun b => decide (b.ip < rEnd w x) with hP
  have hsplit : B.takeWhile P ++ B.dropWhile P = B := List.takeWhile_append_dropWhile P B
  have hmemB₁ : ∀ b ∈ B.takeWhile P, b ∈ B := fun b hb => (List.takeWhile_sublist P).subset hb
  have hmemB₂ : ∀ b ∈ B.dropWhile P, b ∈ B := fun b hb => (List.dropWhile_sublist P).subset hb
  have hpwBip : B.Pairwise ipLt := hpwB.imp (fun h => gapLe_ipLt w _ _ h)
  refine ⟨⟨hwfA, hwfx, fun b hb => hwfB b (hmemB₁ b hb), fun b hb => hwfB b (hmemB₂ b hb),
    ?_, ?_, ?_, hchA, ?_⟩, hsplit⟩
  · rw [pairwise_mid_iff, hsplit]
    exact ⟨hpwA.imp (fun h => gapLe_ipLt w _ _ h), hpwBip,
      fun a ha => gapLe_ipLt w _ _ (hAx a ha),
      fun b hb => hxB b hb,
      fun a ha b hb => gapLe_ipLt w _ _ (hcross a ha b hb)⟩
  · intro b hb
    have hbB : b ∈ B := hmemB₁ b hb
    have hblt : b.ip < rEnd w x := by simpa [hP] using List.mem_takeWhile_imp hb
    have hbgt : x.ip < b.ip := hxB b hbB
    have hd := dyadic w b x (hwfB b hbB) hwfx hblt (by
        have := sz_pos w b
        unfold rEnd
        omega)
    rcases hd with h | h
    · exact h
    · exfalso
      omega
  · rw [pairwise_mid_iff]
    refine ⟨hpwA, hpwB.sublist (List.dropWhile_sublist P), fun a ha => hAx a ha, ?_,
      fun a ha b hb => hcross a ha b (hmemB₂ b hb)⟩
    intro b hb
    show gapLe w x b
    unfold gapLe
    exact dropWhile_ge w (rEnd w x) B hpwBip b hb
  · exact chain'_suffix (mergeNone w) _ B (List.dropWhile_suffix P) hchB

theorem memList_singleton (w : Nat) (a : Nat) (p : IpRange) :
    memList w a [p] ↔ inR w a p := by
  rw [memList_cons]
  simp [memList_nil w a]

theorem inv_decomp_mid (w : Nat) (A : List IpRange) (e : IpRange) (B : List IpRange)
    (hinv : Inv w (A ++ e :: B)) :
    allWF w A ∧ WF w e ∧ allWF w B ∧
      A.Pairwise (gapLe w) ∧ B.Pairwise (gapLe w) ∧
      (∀ a ∈ A, gapLe w a e) ∧ (∀ b ∈ B, gapLe w e b) ∧
      (∀ a ∈ A, ∀ b ∈ B, gapLe w a b) ∧
      A.Chain' (mergeNone w) ∧ B.Chain' (mergeNone w) := by
  obtain ⟨hwf, hgap, hmn⟩ := hinv
  have hm := (pairwise_mid_iff (gapLe w) A e B).mp (chain_gap_pairwise w _ hgap)
  have hch := List.chain'_append.mp hmn
  exact ⟨fun a ha => hwf a (by simp [ha]), hwf e (by simp), fun b hb => hwf b (by simp [hb]),
    hm.1, hm.2.1, hm.2.2.1, hm.2.2.2.1, hm.2.2.2.2, hch.1, hch.2.1.tail⟩

theorem inv_decomp_app (w : Nat) (A B : List IpRange) (hinv : Inv w (A ++ B)) :
    allWF w A ∧ allWF w B ∧ A.Pairwise (gapLe w) ∧ B.Pairwise (gapLe w) ∧
      (∀ a ∈ A, ∀ b ∈ B, gapLe w a b) ∧ A.Chain' (mergeNone w) ∧ B.Chain' (mergeNone w) := by
  obtain ⟨hwf, hgap, hmn⟩ := hinv
  have hpw := List.pairwise_append.mp (chain_gap_pairwise w _ hgap)
  have hch := List.chain'_append.mp hmn
  exact ⟨fun a ha => hwf a (by simp [ha]), fun b hb => hwf b (by simp [hb]),
    hpw.1, hpw.2.1, hpw.2.2, hch.1, hch.2.1⟩

theorem add_eq_ok (w : Nat) (l : List IpRange) (i : IpRange) (idx : Nat) (r : IpRange)
    (hbs : binary_search i.ip l = .ok idx)
    (hm : merge_with w i (l.getD idx d0) = some r) :
    add w l i = some (neighbor_merge w (l.set idx r) idx) := by
  unfold add
  rw [hbs]
  show (match merge_with w i (l.getD idx d0) with
        | some r => some (neighbor_merge w (l.set idx r) idx)
        | none => none) = some (neighbor_merge w (l.set idx r) idx)
  rw [hm]

theorem add_eq_err (w : Nat) (l : List IpRange) (i : IpRange) (idx : Nat)
    (hbs : binary_search i.ip l = .error idx) :
    add w l i = some (neighbor_merge w (insertAt idx i l) idx) := by
  unfold add
  rw [hbs]

/-- Main correctness of `add`: on an invariant list with a well-formed
normalized argument it never panics, preserves the invariant, and the covered
address set grows by exactly the argument's interval. -/
theorem add_main (w : Nat) (l : List IpRange) (i : IpRange)
    (hinv : Inv w l) (hwf : WF w i) :
    ∃ l', add w l i = some l' ∧ Inv w l' ∧
      ∀ a, memList w a l' ↔ memList w a l ∨ inR w a i := by
  cases hbs : binary_search i.ip l with
  | ok idx =>
    obtain ⟨hidx, hkey⟩ := binary_search_ok i.ip l idx hbs
    obtain ⟨A, e, B, rfl, hA⟩ := exists_decomp l idx hidx
    rw [← hA] at hkey hbs
    have hge : (A ++ e :: B).getD A.length d0 = e := getD_append_length A e B
    rw [hge] at hkey
    obtain ⟨hdA, hwfe, hdB, hpwA, hpwB, hAe, heB, hcross, hchA, hchB⟩ :=
      inv_decomp_mid w A e B hinv
    obtain ⟨c, hm, hcor, hcip, hci, hce⟩ := merge_same_ip w i e hwf hwfe hkey.symm
    rw [add_eq_ok w (A ++ e :: B) i A.length c hbs (by rw [hge]; exact hm),
      set_append_length A e B c]
    have hwfc : WF w c := by
      rcases hcor with rfl | rfl
      · exact hwf
      · exact hwfe
    have hAc : ∀ a ∈ A, gapLe w a c := by
      intro a ha
      have := hAe a ha
      unfold gapLe at *
      omega
    have hcB : ∀ b ∈ B, c.ip < b.ip := by
      intro b hb
      have h1 := gapLe_ipLt w e b (heB b hb)
      unfold ipLt at h1
      omega
    obtain ⟨hpre, hsplit⟩ := nmpre_build w A c B hdA hdB hwfc hpwA hpwB hcross hchA hchB hAc hcB
    have hmain := neighbor_merge_main w A c _ _ hpre
    rw [hsplit] at hmain
    refine ⟨_, rfl, hmain.1, fun a => ?_⟩
    rw [hmain.2 a]
    rw [memList_append, memList_append, memList_cons, memList_cons]
    have hc_iff : inR w a c ↔ inR w a e ∨ inR w a i := by
      constructor
      · intro h
        rcases hcor with rfl | rfl
        · exact Or.inr h
        · exact Or.inl h
      · intro h
        unfold inR at *
        rcases h with h | h
        · exact ⟨by omega, by omega⟩
        · exact ⟨by omega, by omega⟩
    tauto
  | error idx =>
    obtain ⟨hle, hlo, hhi⟩ := binary_search_err i.ip l idx hbs
    obtain ⟨A, B, rfl, hA⟩ : ∃ A B, l = A ++ B ∧ A.length = idx :=
      ⟨l.take idx, l.drop idx, (List.take_append_drop idx l).symm,
        by simp [List.length_take]; omega⟩
    rw [← hA] at hlo hhi hbs
    rw [add_eq_err w (A ++ B) i A.length hbs, insertAt_append A i B]
    have hAi : ∀ a ∈ A, a.ip < i.ip := by
      intro a ha
      obtain ⟨j, hj, hja⟩ := List.mem_iff_getElem.mp ha
      have hx := hlo j (by omega)
      rw [getD_append_lt A B j hj, List.getD_eq_getElem A d0 hj, hja] at hx
      exact hx
    have hBi : ∀ b ∈ B, i.ip < b.ip := by
      cases B with
      | nil =>
        intro b hb
        cases hb
      | cons b0 B' =>
        have h0 : i.ip < b0.ip := by
          have hx := hhi (by simp)
          rw [getD_append_length A b0 B'] at hx
          exact hx
        intro b hb
        rcases List.mem_cons.mp hb with rfl | hb'
        · exact h0
        · have hpw := chain_gap_pairwise w _ hinv.2.1
          have h1 := (List.pairwise_append.mp hpw).2.1
          have h2 := gapLe_ipLt w b0 b ((List.pairwise_cons.mp h1).1 b hb')
          unfold ipLt at h2
          omega
    obtain ⟨hdA, hdB, hpwA, hpwB, hcross, hchA, hchB⟩ := inv_decomp_app w A B hinv
    by_cases hAe : A = []
    · subst hAe
      obtain ⟨hpre, hsplit⟩ := nmpre_build w [] i B (by intro a ha; cases ha) hdB hwf
        (by simp) hpwB (by intro a ha; cases ha) (by simp) hchB
        (by intro a ha; cases ha) hBi
      have hmain := neighbor_merge_main w [] i _ _ hpre
      rw [hsplit] at hmain
      refine ⟨_, rfl, hmain.1, fun a => ?_⟩
      rw [hmain.2 a]
      simp only [List.nil_append]
      rw [memList_cons]
      tauto
    · obtain ⟨A₀, p, rfl⟩ := exists_dropLast A hAe
      have hwfp : WF w p := hdA p (by simp)
      by_cases hpx : i.ip < rEnd w p
      · have hplt : p.ip < i.ip := hAi p (by simp)
        have hsub : subInt w i p := by
          have hd := dyadic w i p hwf hwfp hpx (by
            have := sz_pos w i
            unfold rEnd
            omega)
          rcases hd with h | h
          · exact h
          · exfalso
            omega
        have hform : (A₀ ++ [p]) ++ i :: B = A₀ ++ p :: i :: B := by simp
        have hlen1 : (A₀ ++ [p]).length = A₀.length + 1 := by simp
        rw [hform, hlen1]
        have hinv' : Inv w (A₀ ++ p :: B) := by
          have : (A₀ ++ [p]) ++ B = A₀ ++ p :: B := by simp
          rwa [this] at hinv
        rw [neighbor_merge_sub w A₀ p i B hinv' hwf hplt hsub.2]
        refine ⟨_, rfl, hinv', fun a => ?_⟩
        have himp : inR w a i → inR w a p := fun h =>
          ⟨le_trans hsub.1 h.1, lt_of_lt_of_le h.2 hsub.2⟩
        have hnil := memList_nil w a
        simp only [memList_append, memList_cons, memList_singleton]
        tauto
      · push_neg at hpx
        have hAgap : ∀ a ∈ A₀ ++ [p], gapLe w a i := by
          intro a ha
          rcases List.mem_append.mp ha with ha' | ha'
          · have h1 := (List.pairwise_append.mp hpwA).2.2 a ha' p (by simp)
            have hppos := sz_pos w p
            unfold gapLe rEnd at *
            omega
          · have : a = p := by simpa using ha'
            subst this
            exact hpx
        obtain ⟨hpre, hsplit⟩ := nmpre_build w (A₀ ++ [p]) i B hdA hdB hwf hpwA hpwB
          hcross hchA hchB hAgap hBi
        have hmain := neighbor_merge_main w (A₀ ++ [p]) i _ _ hpre
        rw [hsplit] at hmain
        refine ⟨_, rfl, hmain.1, fun a => ?_⟩
        rw [hmain.2 a]
        simp only [memList_append, memList_cons]
        tauto

theorem Inv_nil (w : Nat) : Inv w [] :=
  ⟨fun r hr => absurd hr (List.not_mem_nil r), List.chain'_nil, List.chain'_nil⟩

theorem Inv_singleton (w : Nat) (r : IpRange) (h : WF w r) : Inv w [r] := by
  refine ⟨?_, List.chain'_singleton r, List.chain'_singleton r⟩
  intro s hs
  rcases List.mem_cons.mp hs with rfl | hs'
  · exact h
  · cases hs'

/-- Iterated `add` (the loop of `add_list`) keeps the invariant, never panics,
and covers exactly the union of the old set with all the inserted ranges. -/
theorem addAll_main (w : Nat) (ps : List IpRange) : ∀ (l : List IpRange),
    Inv w l → (∀ p ∈ ps, WF w p) →
    ∃ l', addAll w l ps = some l' ∧ Inv w l' ∧
      ∀ a, memList w a l' ↔ memList w a l ∨ ∃ p ∈ ps, inR w a p := by
  induction ps with
  | nil =>
    intro l hinv _
    exact ⟨l, rfl, hinv, by simp⟩
  | cons p ps ih =>
    intro l hinv hwf
    obtain ⟨l1, h1, hinv1, hsem1⟩ := add_main w l p hinv (hwf p (by simp))
    obtain ⟨l', h2, hinv', hsem'⟩ := ih l1 hinv1 (fun q hq => hwf q (by simp [hq]))
    refine ⟨l', ?_, hinv', fun a => ?_⟩
    · unfold addAll
      rw [h1]
      exact h2
    · rw [hsem' a, hsem1 a]
      have hsplit : (∃ q ∈ p :: ps, inR w a q) ↔ inR w a p ∨ ∃ q ∈ ps, inR w a q := by
        constructor
        · rintro ⟨q, hq, hin⟩
          rcases List.mem_cons.mp hq with rfl | hq'
          · exact Or.inl hin
          · exact Or.inr ⟨q, hq', hin⟩
        · rintro (h | ⟨q, hq, hin⟩)
          · exact ⟨p, by simp, h⟩
          · exact ⟨q, by simp [hq], hin⟩
      rw [hsplit]
      tauto

/-- On disjoint arguments, mergeability is symmetric. -/
theorem merge_none_comm_of_gap (w : Nat) (a b : IpRange) (ha : WF w a) (hb : WF w b)
    (hgap : rEnd w a ≤ b.ip) (h : merge_with w a b = none) : merge_with w b a = none := by
  obtain ⟨f1, f2⟩ := is_subset_of_false_of_gap w a b ha hb hgap
  unfold merge_with at h ⊢
  rw [f1, f2] at h ⊢
  simp only [Bool.false_eq_true, if_false] at h ⊢
  by_cases hc : a.cidr = b.cidr
  · rw [if_neg (by omega : ¬ a.cidr ≠ b.cidr)] at h
    rw [if_neg (by omega : ¬ b.cidr ≠ a.cidr)]
    by_cases he : (reduce_cidr_by_one w a).ip = (reduce_cidr_by_one w b).ip
    · rw [if_pos he] at h
      cases h
    · rw [if_neg (fun hx => he hx.symm)]
  · rw [if_pos (by omega : b.cidr ≠ a.cidr)]

/-- Every (not necessarily adjacent) ordered pair of an invariant list is
strictly sorted, mutually non-mergeable, and in no subset relation. -/
theorem inv_pairs (w : Nat) (l : List IpRange) (hinv : Inv w l)
    (j k : Nat) (hjk : j < k) (hk : k < l.length) :
    (l.getD j d0).ip < (l.getD k d0).ip ∧
      merge_with w (l.getD j d0) (l.getD k d0) = none ∧
      merge_with w (l.getD k d0) (l.getD j d0) = none ∧
      is_subset_of w (l.getD j d0) (l.getD k d0) = false ∧
      is_subset_of w (l.getD k d0) (l.getD j d0) = false := by
  obtain ⟨hwf, hgap, hmn⟩ := hinv
  have hj : j < l.length := by omega
  have hwa : WF w (l.getD j d0) := by
    apply hwf
    rw [List.getD_eq_getElem l d0 hj]
    exact List.getElem_mem _
  have hwb : WF w (l.getD k d0) := by
    apply hwf
    rw [List.getD_eq_getElem l d0 hk]
    exact List.getElem_mem _
  have hg : gapLe w (l.getD j d0) (l.getD k d0) := by
    have hpw := chain_gap_pairwise w l hgap
    rw [List.pairwise_iff_getElem] at hpw
    have := hpw j k hj hk hjk
    rwa [List.getD_eq_getElem l d0 hj, List.getD_eq_getElem l d0 hk]
  obtain ⟨f1, f2⟩ := is_subset_of_false_of_gap w _ _ hwa hwb hg
  have hmab : merge_with w (l.getD j d0) (l.getD k d0) = none := by
    by_cases hadj : k = j + 1
    · subst hadj
      exact chain'_getD (mergeNone w) l j hmn hk
    · have hj1 : j + 1 < l.length := by omega
      have hwc : WF w (l.getD (j + 1) d0) := by
        apply hwf
        rw [List.getD_eq_getElem l d0 hj1]
        exact List.getElem_mem _
      have hg1 : gapLe w (l.getD j d0) (l.getD (j + 1) d0) := by
        have hpw := chain_gap_pairwise w l hgap
        rw [List.pairwise_iff_getElem] at hpw
        have := hpw j (j + 1) hj hj1 (by omega)
        rwa [List.getD_eq_getElem l d0 hj, List.getD_eq_getElem l d0 hj1]
      have hg2 : gapLe w (l.getD (j + 1) d0) (l.getD k d0) := by
        have hpw := chain_gap_pairwise w l hgap
        rw [List.pairwise_iff_getElem] at hpw
        have := hpw (j + 1) k hj1 hk (by omega)
        rwa [List.getD_eq_getElem l d0 hj1, List.getD_eq_getElem l d0 hk]
      apply merge_none_of_gap w _ _ hwa hwb hg
      rintro ⟨_, hadj', _⟩
      have hs := sz_pos w (l.getD (j + 1) d0)
      unfold gapLe rEnd at hg1 hg2
      unfold rEnd at hadj'
      omega
  have hs := sz_pos w (l.getD j d0)
  refine ⟨by unfold gapLe rEnd at hg; omega, hmab,
    merge_none_comm_of_gap w _ _ hwa hwb hg hmab, f1, f2⟩

/-! ### Uniqueness of the compacted form -/

theorem head_min (w : Nat) (r : IpRange) (t : List IpRange) (hinv : Inv w (r :: t))
    (a : Nat) (h : memList w a (r :: t)) : r.ip ≤ a := by
  rw [memList_cons] at h
  rcases h with h | ⟨e, he, hin⟩
  · exact h.1
  · have hg : gapLe w r e :=
      (List.pairwise_cons.mp (chain_gap_pairwise w _ hinv.2.1)).1 e he
    have := sz_pos w r
    unfold gapLe rEnd at hg
    unfold inR at hin
    omega

theorem tail_ge (w : Nat) (r : IpRange) (t : List IpRange) (hinv : Inv w (r :: t))
    (a : Nat) (h : memList w a t) : rEnd w r ≤ a := by
  obtain ⟨e, he, hin⟩ := h
  have hg : gapLe w r e :=
    (List.pairwise_cons.mp (chain_gap_pairwise w _ hinv.2.1)).1 e he
  unfold gapLe at hg
  unfold inR at hin
  omega

theorem inv_tail (w : Nat) (r : IpRange) (t : List IpRange) (hinv : Inv w (r :: t)) :
    Inv w t :=
  ⟨fun s hs => hinv.1 s (by simp [hs]), hinv.2.1.tail, hinv.2.2.tail⟩

/-- Two entries of an invariant list whose intervals are adjacent cannot merge
(they must be consecutive in the list, hence covered by the chain condition). -/
theorem inv_adjacent_entries (w : Nat) (l : List IpRange) (hinv : Inv w l)
    (u v : IpRange) (hu : u ∈ l) (hv : v ∈ l) (hadj : v.ip = rEnd w u) :
    merge_with w u v = none := by
  obtain ⟨S, T, rfl⟩ := List.mem_iff_append.mp hu
  have hpw := chain_gap_pairwise w _ hinv.2.1
  have hmid := (pairwise_mid_iff (gapLe w) S u T).mp hpw
  have hszu := sz_pos w u
  have hvT : v ∈ T := by
    rcases List.mem_append.mp hv with hvS | hvc
    · exfalso
      have hgv : rEnd w v ≤ u.ip := hmid.2.2.1 v hvS
      have := sz_pos w v
      unfold rEnd at hgv hadj
      omega
    · rcases List.mem_cons.mp hvc with rfl | hvT
      · exfalso
        unfold rEnd at hadj
        omega
      · exact hvT
  cases T with
  | nil => cases hvT
  | cons v' T' =>
    have hv'head : gapLe w u v' := hmid.2.2.2.1 v' (by simp)
    have hveq : v = v' := by
      rcases List.mem_cons.mp hvT with rfl | hvT'
      · rfl
      · exfalso
        have hpwT : (v' :: T').Pairwise (gapLe w) := hmid.2.1
        have h6 : rEnd w v' ≤ v.ip := (List.pairwise_cons.mp hpwT).1 v hvT'
        have h5 : rEnd w u ≤ v'.ip := hv'head
        have hp1 := sz_pos w v'
        have hp2 := sz_pos w u
        unfold rEnd at h5 h6 hadj
        omega
    subst hveq
    have hch := hinv.2.2
    rw [List.chain'_append] at hch
    have := hch.2.1
    rw [List.chain'_cons] at this
    exact this.1

theorem half_facts (w : Nat) (D : IpRange) (hwf : WF w D) (hlt : D.cidr < w) :
    WF w ⟨D.ip, D.cidr + 1⟩ ∧
      WF w ⟨D.ip + 2 ^ (w - D.cidr - 1), D.cidr + 1⟩ ∧
      sz w ⟨D.ip, D.cidr + 1⟩ = 2 ^ (w - D.cidr - 1) ∧
      sz w ⟨D.ip + 2 ^ (w - D.cidr - 1), D.cidr + 1⟩ = 2 ^ (w - D.cidr - 1) ∧
      sz w D = 2 * 2 ^ (w - D.cidr - 1) ∧
      (∀ a, inR w a D ↔ inR w a ⟨D.ip, D.cidr + 1⟩ ∨
        inR w a ⟨D.ip + 2 ^ (w - D.cidr - 1), D.cidr + 1⟩) := by
  obtain ⟨h1, h2, h3⟩ := hwf
  have hh : sz w ⟨D.ip, D.cidr + 1⟩ = 2 ^ (w - D.cidr - 1) := by
    unfold sz
    congr 1
  have hh' : sz w ⟨D.ip + 2 ^ (w - D.cidr - 1), D.cidr + 1⟩ = 2 ^ (w - D.cidr - 1) := by
    unfold sz
    congr 1
  have hdouble : sz w D = 2 * 2 ^ (w - D.cidr - 1) := by
    obtain ⟨k, hk⟩ : ∃ k, w - D.cidr = k + 1 := ⟨w - D.cidr - 1, by omega⟩
    unfold sz
    rw [show w - D.cidr - 1 = k by omega, hk, pow_succ]
    ring
  have hpos : (0 : Nat) < 2 ^ (w - D.cidr - 1) := by positivity
  have hdvd_half : (2 : Nat) ^ (w - D.cidr - 1) ∣ D.ip := by
    apply dvd_trans _ (Nat.dvd_of_mod_eq_zero h3)
    exact ⟨2, by omega⟩
  have hbound : D.ip + sz w D ≤ 2 ^ w := by
    have hd2w : sz w D ∣ 2 ^ w := pow_dvd_pow 2 (by omega)
    exact dvd_lt_step (Nat.dvd_of_mod_eq_zero h3) hd2w (sz_pos w D) h1
  have hmod0 : D.ip % 2 ^ (w - D.cidr - 1) = 0 := by
    obtain ⟨c, hc⟩ := hdvd_half
    rw [hc]
    exact Nat.mul_mod_right _ _
  have hmod1 : (D.ip + 2 ^ (w - D.cidr - 1)) % 2 ^ (w - D.cidr - 1) = 0 := by
    obtain ⟨c, hc⟩ := hdvd_half
    rw [hc, show 2 ^ (w - D.cidr - 1) * c + 2 ^ (w - D.cidr - 1)
      = 2 ^ (w - D.cidr - 1) * (c + 1) by ring]
    exact Nat.mul_mod_right _ _
  refine ⟨⟨h1, by simp; omega, by rw [hh]; exact hmod0⟩,
    ⟨by simp; omega, by simp; omega, by rw [hh']; exact hmod1⟩, hh, hh', hdouble, ?_⟩
  intro a
  unfold inR rEnd
  rw [hh, hh', hdouble]
  simp only
  omega

/-- If an invariant list covers all of a well-formed dyadic block `D`, some
single entry contains `D` entirely. -/
theorem cover_lemma (w : Nat) : ∀ (k : Nat) (l : List IpRange) (D : IpRange),
    Inv w l → WF w D → w - D.cidr ≤ k →
    (∀ a, inR w a D → memList w a l) →
    ∃ e ∈ l, subInt w D e := by
  intro k
  induction k with
  | zero =>
    intro l D hinv hwf hk hcov
    obtain ⟨e, he, hin⟩ := hcov D.ip (inR_ip w D)
    have hwfe := hinv.1 e he
    have hd := dyadic w D e hwf hwfe hin.2 (by
      have := sz_pos w D
      unfold inR at hin
      unfold rEnd
      omega)
    rcases hd with h | h
    · exact ⟨e, he, h⟩
    · unfold inR at hin
      refine ⟨e, he, ?_, ?_⟩
      · omega
      · have h1 : sz w D = 1 := by
          unfold sz
          rw [show w - D.cidr = 0 by omega]
          norm_num
        have he1 := sz_pos w e
        unfold rEnd at *
        omega
  | succ k ih =>
    intro l D hinv hwf hk hcov
    obtain ⟨e, he, hin⟩ := hcov D.ip (inR_ip w D)
    have hwfe := hinv.1 e he
    have hd := dyadic w D e hwf hwfe hin.2 (by
      have := sz_pos w D
      unfold inR at hin
      unfold rEnd
      omega)
    rcases hd with h | h
    · exact ⟨e, he, h⟩
    · have heip : e.ip = D.ip := by
        unfold inR at hin
        omega
      by_cases hsame : rEnd w e = rEnd w D
      · exact ⟨e, he, by omega, by omega⟩
      · have hszlt : sz w e < sz w D := by
          unfold rEnd at *
          omega
        have hlt : D.cidr < w := by
          by_contra hcon
          push_neg at hcon
          have h1 : sz w D = 1 := by
            unfold sz
            rw [show w - D.cidr = 0 by omega]
            norm_num
          have := sz_pos w e
          omega
        obtain ⟨hwf0, hwf1, hs0, hs1, hdouble, hsplit⟩ := half_facts w D hwf hlt
        have hH : (0 : Nat) < 2 ^ (w - D.cidr - 1) := by positivity
        have hcov0 : ∀ a, inR w a ⟨D.ip, D.cidr + 1⟩ → memList w a l :=
          fun a ha => hcov a ((hsplit a).mpr (Or.inl ha))
        have hcov1 : ∀ a, inR w a ⟨D.ip + 2 ^ (w - D.cidr - 1), D.cidr + 1⟩ → memList w a l :=
          fun a ha => hcov a ((hsplit a).mpr (Or.inr ha))
        obtain ⟨e0, he0, hsub0⟩ := ih l ⟨D.ip, D.cidr + 1⟩ hinv hwf0 (by simp; omega) hcov0
        obtain ⟨e1, he1, hsub1⟩ := ih l ⟨D.ip + 2 ^ (w - D.cidr - 1), D.cidr + 1⟩ hinv hwf1
          (by simp; omega) hcov1
        have hwfe0 := hinv.1 e0 he0
        have hwfe1 := hinv.1 e1 he1
        obtain ⟨hsub0a, hsub0b⟩ := hsub0
        obtain ⟨hsub1a, hsub1b⟩ := hsub1
        simp only at hsub0a hsub1a
        have hend0 : rEnd w ⟨D.ip, D.cidr + 1⟩ = D.ip + 2 ^ (w - D.cidr - 1) := by
          unfold rEnd
          rw [hs0]
        have hend1 : rEnd w ⟨D.ip + 2 ^ (w - D.cidr - 1), D.cidr + 1⟩ = rEnd w D := by
          unfold rEnd
          rw [hs1, hdouble]
          simp only
          omega
        rw [hend0] at hsub0b
        rw [hend1] at hsub1b
        have halt0 : subInt w D e0 ∨ e0 = ⟨D.ip, D.cidr + 1⟩ := by
          have hd0 := dyadic w D e0 hwf hwfe0
            (by unfold rEnd at *; omega)
            (by have := sz_pos w D; unfold rEnd at *; omega)
          rcases hd0 with hx | hx
          · exact Or.inl hx
          · have hip0 : e0.ip = D.ip := by omega
            have hszge : 2 ^ (w - D.cidr - 1) ≤ sz w e0 := by
              unfold rEnd at hsub0b
              omega
            have hszle : sz w e0 ≤ sz w D := by
              unfold rEnd at hx
              omega
            have hj : w - e0.cidr = w - D.cidr - 1 ∨ w - e0.cidr = w - D.cidr := by
              unfold sz at hszge hszle
              have h1 := (Nat.pow_le_pow_iff_right (a := 2) (by norm_num)).mp hszge
              have h2 := (Nat.pow_le_pow_iff_right (a := 2) (by norm_num)).mp hszle
              omega
            rcases hj with hj | hj
            · right
              have hc0 : e0.cidr = D.cidr + 1 := by
                have := hwfe0.2.1
                omega
              rcases e0 with ⟨e0i, e0c⟩
              simp only at hip0 hc0
              rw [hip0, hc0]
            · left
              have hsz0 : sz w e0 = sz w D := by
                unfold sz
                rw [hj]
              exact ⟨by omega, by unfold rEnd; omega⟩
        have halt1 : subInt w D e1 ∨ e1 = ⟨D.ip + 2 ^ (w - D.cidr - 1), D.cidr + 1⟩ := by
          have hd1 := dyadic w D e1 hwf hwfe1
            (by unfold rEnd at *; have := sz_pos w D; omega)
            (by have := sz_pos w D; unfold rEnd at *; omega)
          rcases hd1 with hx | hx
          · exact Or.inl hx
          · have hendle : rEnd w e1 ≤ rEnd w D := hx.2
            have hende : rEnd w e1 = rEnd w D := by
              unfold rEnd at *
              omega
            have hszge : 2 ^ (w - D.cidr - 1) ≤ sz w e1 := by
              unfold rEnd at hende
              omega
            have hszle : sz w e1 ≤ sz w D := by
              unfold rEnd at hende
              omega
            have hj : w - e1.cidr = w - D.cidr - 1 ∨ w - e1.cidr = w - D.cidr := by
              unfold sz at hszge hszle
              have h1 := (Nat.pow_le_pow_iff_right (a := 2) (by norm_num)).mp hszge
              have h2 := (Nat.pow_le_pow_iff_right (a := 2) (by norm_num)).mp hszle
              omega
            rcases hj with hj | hj
            · right
              have hc1 : e1.cidr = D.cidr + 1 := by
                have := hwfe1.2.1
                omega
              have hsz1 : sz w e1 = 2 ^ (w - D.cidr - 1) := by
                unfold sz
                rw [hj]
              have hip1 : e1.ip = D.ip + 2 ^ (w - D.cidr - 1) := by
                unfold rEnd at hende
                rw [hsz1] at hende
                rw [hdouble] at hende
                unfold rEnd at *
                omega
              rcases e1 with ⟨e1i, e1c⟩
              simp only at hip1 hc1
              rw [hip1, hc1]
            · left
              have hsz1 : sz w e1 = sz w D := by
                unfold sz
                rw [hj]
              have hip1 : e1.ip = D.ip := by
                unfold rEnd at hende
                omega
              exact ⟨by omega, by unfold rEnd; omega⟩
        rcases halt0 with h0 | h0
        · exact ⟨e0, he0, h0⟩
        · rcases halt1 with h1 | h1
          · exact ⟨e1, he1, h1⟩
          · exfalso
            subst h0
            subst h1
            have hadj : (⟨D.ip + 2 ^ (w - D.cidr - 1), D.cidr + 1⟩ : IpRange).ip
                = rEnd w ⟨D.ip, D.cidr + 1⟩ := by
              rw [hend0]
            have hnone := inv_adjacent_entries w l hinv _ _ he0 he1 hadj
            have hsome := merge_sibling w ⟨D.ip, D.cidr + 1⟩
              ⟨D.ip + 2 ^ (w - D.cidr - 1), D.cidr + 1⟩ hwf0 hwf1 rfl hadj (by
                show D.ip % (2 * sz w (⟨D.ip, D.cidr + 1⟩ : IpRange)) = 0
                rw [hs0, ← hdouble]
                exact hwf.2.2)
            rw [hnone] at hsome
            cases hsome

theorem head_eq_aux (w : Nat) (r₁ : IpRange) (t₁ : List IpRange) (r₂ : IpRange)
    (t₂ : List IpRange) (hinv₁ : Inv w (r₁ :: t₁)) (hinv₂ : Inv w (r₂ :: t₂))
    (hsem : ∀ a, memList w a (r₁ :: t₁) ↔ memList w a (r₂ :: t₂))
    (hip : r₁.ip = r₂.ip) (hs : sz w r₁ ≤ sz w r₂) : r₁ = r₂ := by
  have hwf₁ : WF w r₁ := hinv₁.1 r₁ (by simp)
  have hwf₂ : WF w r₂ := hinv₂.1 r₂ (by simp)
  have hcov : ∀ a, inR w a r₂ → memList w a (r₁ :: t₁) :=
    fun a ha => (hsem a).mpr ⟨r₂, by simp, ha⟩
  obtain ⟨e, he, hsub1, hsub2⟩ :=
    cover_lemma w (w - r₂.cidr) (r₁ :: t₁) r₂ hinv₁ hwf₂ (le_refl _) hcov
  have hee : e = r₁ := by
    rcases List.mem_cons.mp he with rfl | he'
    · rfl
    · exfalso
      have hg := (List.pairwise_cons.mp (chain_gap_pairwise w _ hinv₁.2.1)).1 e he'
      have := sz_pos w r₁
      unfold gapLe rEnd at hg
      omega
  subst hee
  have hszeq : sz w e = sz w r₂ := by
    unfold rEnd at hsub2
    omega
  have hc : e.cidr = r₂.cidr := by
    unfold sz at hszeq
    have hj := Nat.pow_right_injective (le_refl 2) hszeq
    have := hwf₁.2.1
    have := hwf₂.2.1
    omega
  rcases e with ⟨i1, c1⟩
  rcases r₂ with ⟨i2, c2⟩
  simp only at hip hc
  rw [hip, hc]

/-- An invariant (maximally compacted) list is determined by the set of
addresses it covers. -/
theorem inv_sem_unique (w : Nat) : ∀ (l₁ l₂ : List IpRange), Inv w l₁ → Inv w l₂ →
    (∀ a, memList w a l₁ ↔ memList w a l₂) → l₁ = l₂ := by
  intro l₁
  induction l₁ with
  | nil =>
    intro l₂ _ hinv₂ hsem
    cases l₂ with
    | nil => rfl
    | cons r₂ t₂ =>
      exfalso
      exact memList_nil w r₂.ip ((hsem r₂.ip).mpr ⟨r₂, by simp, inR_ip w r₂⟩)
  | cons r₁ t₁ ih =>
    intro l₂ hinv₁ hinv₂ hsem
    cases l₂ with
    | nil =>
      exfalso
      exact memList_nil w r₁.ip ((hsem r₁.ip).mp ⟨r₁, by simp, inR_ip w r₁⟩)
    | cons r₂ t₂ =>
      have hip : r₁.ip = r₂.ip := by
        have h12 : r₂.ip ≤ r₁.ip :=
          head_min w r₂ t₂ hinv₂ r₁.ip ((hsem r₁.ip).mp ⟨r₁, by simp, inR_ip w r₁⟩)
        have h21 : r₁.ip ≤ r₂.ip :=
          head_min w r₁ t₁ hinv₁ r₂.ip ((hsem r₂.ip).mpr ⟨r₂, by simp, inR_ip w r₂⟩)
        omega
      have hhead : r₁ = r₂ := by
        rcases le_total (sz w r₁) (sz w r₂) with hs | hs
        · exact head_eq_aux w r₁ t₁ r₂ t₂ hinv₁ hinv₂ hsem hip hs
        · exact (head_eq_aux w r₂ t₂ r₁ t₁ hinv₂ hinv₁ (fun a => (hsem a).symm)
            hip.symm hs).symm
      subst hhead
      have hsem' : ∀ a, memList w a t₁ ↔ memList w a t₂ := by
        intro a
        constructor
        · intro h
          have hge := tail_ge w r₁ t₁ hinv₁ a h
          have hx := (hsem a).mp (by rw [memList_cons]; exact Or.inr h)
          rw [memList_cons] at hx
          rcases hx with hc | ht
          · exfalso
            unfold inR at hc
            omega
          · exact ht
        · intro h
          have hge := tail_ge w r₁ t₂ hinv₂ a h
          have hx := (hsem a).mpr (by rw [memList_cons]; exact Or.inr h)
          rw [memList_cons] at hx
          rcases hx with hc | ht
          · exfalso
            unfold inR at hc
            omega
          · exact ht
      rw [ih t₂ (inv_tail w r₁ t₁ hinv₁) (inv_tail w r₁ t₂ hinv₂) hsem']

/-! ### Evaluation helpers on small inputs -/

theorem add_nil (w : Nat) (i : IpRange) : add w [] i = some [i] := by
  rw [add_eq_err w [] i 0 rfl]
  show some (neighbor_merge w [i] 0) = some [i]
  unfold neighbor_merge
  rw [neighborMergeGo_val_zero, neighborMergeRight_val_stop w [i] 0 (by simp)]

/-- Generic statement behind claim C6: in the exact-base-match branch the merge
always succeeds, so `add` cannot reach the `unreachable!()` arm. -/
theorem add_ok_merge_some (w : Nat) (l : List IpRange) (i : IpRange) (idx : Nat)
    (hinv : Inv w l) (hwf : WF w i)
    (hbs : binary_search i.ip l = .ok idx) :
    (merge_with w i (l.getD idx d0)).isSome = true ∧ add w l i ≠ none := by
  obtain ⟨hidx, hkey⟩ := binary_search_ok i.ip l idx hbs
  have hwfe : WF w (l.getD idx d0) := by
    apply hinv.1
    rw [List.getD_eq_getElem l d0 hidx]
    exact List.getElem_mem _
  obtain ⟨c, hm, _⟩ := merge_same_ip w i (l.getD idx d0) hwf hwfe hkey.symm
  constructor
  · rw [hm]
    rfl
  · obtain ⟨l', hl', _⟩ := add_main w l i hinv hwf
    rw [hl']
    simp

instance (w : Nat) (r : IpRange) : Decidable (WF w r) :=
  inferInstanceAs (Decidable (r.ip < 2 ^ w ∧ r.cidr ≤ w ∧ r.ip % sz w r = 0))

/-- The 256 normalized /24 blocks `192.168.0.0/24 .. 192.168.255.0/24`. -/
def blocks256 : List IpRange := (List.range 256).map (fun k => ⟨0xC0A80000 + 256 * k, 24⟩)

theorem blocks256_WF : ∀ p ∈ blocks256, WF 32 p := by
  intro p hp
  rw [blocks256, List.mem_map] at hp
  obtain ⟨k, hk, rfl⟩ := hp
  rw [List.mem_range] at hk
  refine ⟨by norm_num; omega, by norm_num, ?_⟩
  show (0xC0A80000 + 256 * k) % 2 ^ (32 - 24) = 0
  norm_num [Nat.add_mul_mod_self_left]

/-! ### Claim theorems (core engine) -/

/-- C2: after any finite sequence of `add` operations starting from the empty
set, with every added prefix well-formed and normalized, the stored sequence
is strictly increasing by base address, no two entries (in either order) can
`merge_with`, and no entry is a subset of another. -/
theorem C2_compaction_invariant (ps : List IpRange)
    (hwf : ∀ p ∈ ps, WF 32 p) :
    ∃ l', addAll 32 [] ps = some l' ∧
      ∀ j k, j < k → k < l'.length →
        (l'.getD j d0).ip < (l'.getD k d0).ip ∧
        merge_with 32 (l'.getD j d0) (l'.getD k d0) = none ∧
        merge_with 32 (l'.getD k d0) (l'.getD j d0) = none ∧
        is_subset_of 32 (l'.getD j d0) (l'.getD k d0) = false ∧
        is_subset_of 32 (l'.getD k d0) (l'.getD j d0) = false := by
  obtain ⟨l', h1, hinv, _⟩ := addAll_main 32 ps [] (Inv_nil 32) hwf
  exact ⟨l', h1, fun j k hjk hk => inv_pairs 32 l' hinv j k hjk hk⟩

theorem C2_compaction_invariant_witness :
    (∀ p ∈ [(⟨0, 24⟩ : IpRange), ⟨256, 24⟩], WF 32 p) ∧
      (∃ l', addAll 32 [] [(⟨0, 24⟩ : IpRange), ⟨256, 24⟩] = some l' ∧
        ∀ j k, j < k → k < l'.length →
          (l'.getD j d0).ip < (l'.getD k d0).ip ∧
          merge_with 32 (l'.getD j d0) (l'.getD k d0) = none ∧
          merge_with 32 (l'.getD k d0) (l'.getD j d0) = none ∧
          is_subset_of 32 (l'.getD j d0) (l'.getD k d0) = false ∧
          is_subset_of 32 (l'.getD k d0) (l'.getD j d0) = false) :=
  ⟨by decide, C2_compaction_invariant [⟨0, 24⟩, ⟨256, 24⟩] (by decide)⟩

instance (w : Nat) (a b : IpRange) : Decidable (gapLe w a b) :=
  inferInstanceAs (Decidable (rEnd w a ≤ b.ip))

instance (w : Nat) (a b : IpRange) : Decidable (mergeNone w a b) :=
  inferInstanceAs (Decidable (merge_with w a b = none))

instance (w : Nat) (l : List IpRange) : Decidable (allWF w l) :=
  inferInstanceAs (Decidable (∀ r ∈ l, WF w r))

instance (w : Nat) (l : List IpRange) : Decidable (Inv w l) :=
  inferInstanceAs (Decidable (allWF w l ∧ l.Chain' (gapLe w) ∧ l.Chain' (mergeNone w)))

/-- C6: when `add` is called with a normalized prefix `i` on a set satisfying
the compaction invariant and the binary search finds an entry with the same
base address, `merge_with` between `i` and that entry returns `Some` (one is
necessarily a subset of the other), so the `unreachable!()` branch of
`add_v4` / `add_v6` is never taken and `add` returns normally. -/
theorem C6_unreachable_branch (l : List IpRange) (i : IpRange) (idx : Nat) :
    (Inv 32 l → WF 32 i → binary_search i.ip l = .ok idx →
      (merge_with 32 i (l.getD idx d0)).isSome = true ∧ add_v4 l i ≠ none) ∧
    (Inv 128 l → WF 128 i → binary_search i.ip l = .ok idx →
      (merge_with 128 i (l.getD idx d0)).isSome = true ∧ add_v6 l i ≠ none) :=
  ⟨fun h1 h2 h3 => add_ok_merge_some 32 l i idx h1 h2 h3,
   fun h1 h2 h3 => add_ok_merge_some 128 l i idx h1 h2 h3⟩

theorem C6_unreachable_branch_witness :
    ((merge_with 32 ⟨0, 20⟩ ([(⟨0, 24⟩ : IpRange)].getD 0 d0)).isSome = true ∧
      add_v4 [⟨0, 24⟩] ⟨0, 20⟩ ≠ none) ∧
    ((merge_with 128 ⟨0, 20⟩ ([(⟨0, 24⟩ : IpRange)].getD 0 d0)).isSome = true ∧
      add_v6 [⟨0, 24⟩] ⟨0, 20⟩ ≠ none) :=
  ⟨(C6_unreachable_branch [⟨0, 24⟩] ⟨0, 20⟩ 0).1
      (Inv_singleton 32 ⟨0, 24⟩ (by decide)) (by decide) rfl,
   (C6_unreachable_branch [⟨0, 24⟩] ⟨0, 20⟩ 0).2
      (Inv_singleton 128 ⟨0, 24⟩ (by decide)) (by decide) rfl⟩

/-- C3: `merge_with` follows the stated precedence: if one argument is a
subset of the other it returns the superset (witnessed by `is_superset_of`);
otherwise with different prefix lengths it returns `none`; otherwise, if
reducing both prefix lengths by one yields the same base it returns that
parent, else `none`.  Concretely, `192.168.0.0/24` and `192.168.1.0/24`
merge to `192.168.0.0/23`; `192.168.0.0/24` and `192.168.2.0/24` do not
merge; `192.168.0.0/24` with `192.168.0.0/23` yields `192.168.0.0/23`. -/
theorem C3_merge_precedence :
    (∀ (w : Nat) (a b : IpRange),
      (is_subset_of w a b = true →
        merge_with w a b = some b ∧ is_superset_of w b a = true) ∧
      (is_subset_of w a b = false → is_subset_of w b a = true →
        merge_with w a b = some a ∧ is_superset_of w a b = true) ∧
      (is_subset_of w a b = false → is_subset_of w b a = false →
        a.cidr ≠ b.cidr → merge_with w a b = none) ∧
      (is_subset_of w a b = false → is_subset_of w b a = false →
        a.cidr = b.cidr → (reduce_cidr_by_one w a).ip = (reduce_cidr_by_one w b).ip →
        merge_with w a b = some (reduce_cidr_by_one w a)) ∧
      (is_subset_of w a b = false → is_subset_of w b a = false →
        a.cidr = b.cidr → (reduce_cidr_by_one w a).ip ≠ (reduce_cidr_by_one w b).ip →
        merge_with w a b = none)) ∧
    merge_with 32 ⟨0xC0A80000, 24⟩ ⟨0xC0A80100, 24⟩ = some ⟨0xC0A80000, 23⟩ ∧
    merge_with 32 ⟨0xC0A80000, 24⟩ ⟨0xC0A80200, 24⟩ = none ∧
    merge_with 32 ⟨0xC0A80000, 24⟩ ⟨0xC0A80000, 23⟩ = some ⟨0xC0A80000, 23⟩ := by
  refine ⟨fun w a b => ⟨?_, ?_, ?_, ?_, ?_⟩, by decide, by decide, by decide⟩
  · intro h1
    refine ⟨by simp [merge_with, h1], ?_⟩
    have e : is_superset_of w b a = is_subset_of w a b := rfl
    rw [e, h1]
  · intro h1 h2
    refine ⟨by simp [merge_with, h1, h2], ?_⟩
    have e : is_superset_of w a b = is_subset_of w b a := rfl
    rw [e, h2]
  · intro h1 h2 h3
    simp [merge_with, h1, h2, h3]
  · intro h1 h2 h3 h4
    simp [merge_with, h1, h2, h3, h4]
  · intro h1 h2 h3 h4
    simp [merge_with, h1, h2, h3, h4]

theorem C3_merge_precedence_witness :
    is_subset_of 32 ⟨0xC0A80000, 24⟩ ⟨0xC0A80000, 23⟩ = true ∧
    merge_with 32 ⟨0xC0A80000, 24⟩ ⟨0xC0A80000, 23⟩ = some ⟨0xC0A80000, 23⟩ ∧
    is_superset_of 32 ⟨0xC0A80000, 23⟩ ⟨0xC0A80000, 24⟩ = true := by
  have h := (C3_merge_precedence.1 32 ⟨0xC0A80000, 24⟩ ⟨0xC0A80000, 23⟩).1 (by decide)
  exact ⟨by decide, h.1, h.2⟩

/-- C9: `normalize` clears all base-address bits below the prefix length
(`base &&& ~mask = 0` afterwards, with the prefix length unchanged), an
already-normalized prefix is left unchanged (and normalization is
idempotent), and normalization fails hard (`panic`, modelled by `none`)
exactly when `cidr > 32`. -/
theorem C9_normalize_properties (r : IpRange) (h : r.ip < 2 ^ 32) :
    (r.cidr ≤ 32 → ∃ r', normalizeAux 32 r = some r' ∧ r'.cidr = r.cidr ∧
      Nat.land r'.ip (2 ^ (32 - r.cidr) - 1) = 0) ∧
    (r.cidr ≤ 32 → r.ip % 2 ^ (32 - r.cidr) = 0 → normalizeAux 32 r = some r) ∧
    (∀ r', normalizeAux 32 r = some r' → normalizeAux 32 r' = some r') ∧
    (normalizeAux 32 r = none ↔ 32 < r.cidr) := by
  refine ⟨?_, ?_, ?_, normalizeAux_none_iff 32 r⟩
  · intro hc
    refine ⟨normalize 32 r, normalizeAux_eq_some 32 r hc, ?_, ?_⟩
    · rw [normalize_eq 32 r h hc]
    · rw [normalize_eq 32 r h hc]
      show Nat.land (r.ip / 2 ^ (32 - r.cidr) * 2 ^ (32 - r.cidr))
        (2 ^ (32 - r.cidr) - 1) = 0
      have e : ∀ x y : Nat, Nat.land x y = x &&& y := fun _ _ => rfl
      rw [e, Nat.and_pow_two_sub_one_eq_mod, Nat.mul_mod_left]
  · intro hc hm
    rw [normalizeAux_eq_some 32 r hc, normalize_of_WF 32 r ⟨h, hc, hm⟩]
  · intro r' hr'
    have hc : r.cidr ≤ 32 := by
      by_contra hgt
      rw [(normalizeAux_none_iff 32 r).mpr (by omega)] at hr'
      exact Option.noConfusion hr'
    rw [normalizeAux_eq_some 32 r hc] at hr'
    injection hr' with hr'
    subst hr'
    have hwf := normalize_WF 32 r h hc
    rw [normalizeAux_eq_some 32 (normalize 32 r) hwf.2.1, normalize_of_WF 32 _ hwf]

theorem C9_normalize_properties_witness :
    (∃ r', normalizeAux 32 (⟨0xC0A80101, 24⟩ : IpRange) = some r' ∧
      r'.cidr = (⟨0xC0A80101, 24⟩ : IpRange).cidr ∧
      Nat.land r'.ip (2 ^ (32 - (⟨0xC0A80101, 24⟩ : IpRange).cidr) - 1) = 0) ∧
    normalizeAux 32 (⟨0, 33⟩ : IpRange) = none :=
  ⟨(C9_normalize_properties ⟨0xC0A80101, 24⟩ (by norm_num)).1 (by norm_num),
   ((C9_normalize_properties ⟨0, 33⟩ (by norm_num)).2.2.2).mpr (by norm_num)⟩

/-- C10: for every prefix `p`, `substract_v4` / `substract_v6` on the empty
set returns normally and leaves the set unchanged, while on any non-empty
set the `unimplemented!()` in the loop body panics (modelled by `none`). -/
theorem C10_substract_behavior (p : IpRange) (l : List IpRange) :
    (l = [] → substract_v4 l p = some l ∧ substract_v6 l p = some l) ∧
    (l ≠ [] → substract_v4 l p = none ∧ substract_v6 l p = none) := by
  constructor
  · rintro rfl
    exact ⟨rfl, rfl⟩
  · intro h
    cases l with
    | nil => exact absurd rfl h
    | cons x xs => exact ⟨rfl, rfl⟩

theorem C10_substract_behavior_witness :
    (substract_v4 [] d0 = some [] ∧ substract_v6 [] d0 = some []) ∧
    (substract_v4 [d0] d0 = none ∧ substract_v6 [d0] d0 = none) :=
  ⟨(C10_substract_behavior d0 []).1 rfl,
   (C10_substract_behavior d0 [d0]).2 (by simp)⟩

/-- C4 counterexample to the original claim: `add(10.0.0.0/8)` on the empty
set stores the prefix, but the subsequent `subtract(10.0.0.0/8)` panics
(`unimplemented!()`, modelled by `none`) instead of returning the empty
set, so the round-trip does not hold; subtracting the disjoint block
`192.168.0.0/16` from the same non-empty set panics as well, refuting the
disjoint no-op part too. -/
theorem C4_roundtrip_counterexample :
    add_v4 [] ⟨0x0A000000, 8⟩ = some [⟨0x0A000000, 8⟩] ∧
    substract_v4 [⟨0x0A000000, 8⟩] ⟨0x0A000000, 8⟩ = none ∧
    substract_v4 [⟨0x0A000000, 8⟩] ⟨0xC0A80000, 16⟩ = none :=
  ⟨add_nil 32 _, rfl, rfl⟩

/-- C4 (amended): `add(p)` on the empty set stores exactly `p`, but
`subtract(p)` panics on every non-empty set — in particular on the
singleton `{p}` — so the round-trip never completes; subtraction leaves
the set unchanged only when the set is empty (where it is vacuously a
no-op for any `p`, disjoint or not). -/
theorem C4_roundtrip_amended (p : IpRange) :
    add_v4 [] p = some [p] ∧ substract_v4 [p] p = none ∧
    substract_v4 [] p = some [] :=
  ⟨add_nil 32 p, rfl, rfl⟩

/-- C5: inserting the 256 blocks `192.168.0.0/24 .. 192.168.255.0/24` in any
order (any permutation of `blocks256`) into an empty set via `add` yields
exactly the single entry `192.168.0.0/16`. -/
theorem C5_insertion_order_independence (ps : List IpRange)
    (hperm : ps.Perm blocks256) :
    addAll 32 [] ps = some [⟨0xC0A80000, 16⟩] := by
  have hwf : ∀ p ∈ ps, WF 32 p := fun p hp => blocks256_WF p (hperm.mem_iff.mp hp)
  obtain ⟨l', h1, hinv, hsem⟩ := addAll_main 32 ps [] (Inv_nil 32) hwf
  have htgt : WF 32 (⟨0xC0A80000, 16⟩ : IpRange) := by
    refine ⟨by norm_num, by norm_num, ?_⟩
    show (0xC0A80000 : Nat) % 2 ^ (32 - 16) = 0
    norm_num
  have hsem2 : ∀ a, memList 32 a l' ↔ memList 32 a [⟨0xC0A80000, 16⟩] := by
    intro a
    rw [hsem a, memList_singleton]
    constructor
    · rintro (hmem | ⟨p, hp, hin⟩)
      · exact absurd hmem (memList_nil 32 a)
      · have hb : p ∈ blocks256 := hperm.mem_iff.mp hp
        rw [blocks256, List.mem_map] at hb
        obtain ⟨k, hk, rfl⟩ := hb
        rw [List.mem_range] at hk
        simp only [inR, rEnd, sz] at hin ⊢
        norm_num at hin ⊢
        omega
    · intro hin
      right
      refine ⟨⟨0xC0A80000 + 256 * ((a - 0xC0A80000) / 256), 24⟩, ?_, ?_⟩
      · rw [hperm.mem_iff, blocks256, List.mem_map]
        refine ⟨(a - 0xC0A80000) / 256, ?_, rfl⟩
        rw [List.mem_range]
        simp only [inR, rEnd, sz] at hin
        norm_num at hin
        omega
      · simp only [inR, rEnd, sz] at hin ⊢
        norm_num at hin ⊢
        omega
  have heq := inv_sem_unique 32 l' [⟨0xC0A80000, 16⟩] hinv
    (Inv_singleton 32 _ htgt) hsem2
  rw [h1, heq]

theorem C5_insertion_order_independence_witness :
    blocks256.Perm blocks256 ∧
    addAll 32 [] blocks256 = some [⟨0xC0A80000, 16⟩] :=
  ⟨List.Perm.refl _, C5_insertion_order_independence blocks256 (List.Perm.refl _)⟩

/-! ### String layer

`FromStr` (src/main.rs:184-241) and `Display` (src/main.rs:172-182) delegate
the address-level conversions to the Rust standard library
(`Ipv4Addr`/`Ipv6Addr` `FromStr` and `Display`, `u8::from_str`, `str::trim`,
`str::split`), whose code is not part of this repository.  Those pieces are
modelled below from their documented grammar, over `List Char`:

* `Ipv4Addr` parsing: exactly four dot-separated octets, each 1-3 decimal
  digits with no leading zero (other than the single digit `0`) and value
  at most 255; display is the dotted quad with canonical decimal octets.
* `Ipv6Addr` parsing: colon-separated groups of 1-4 hex digits, at most 8,
  with at most one `::` that must stand for at least one zero group;
  display compresses the leftmost longest run of at least two zero groups
  to `::` and prints groups as lowercase hex without leading zeros.
  The embedded-IPv4 notation (`::ffff:a.b.c.d`), which Rust accepts when
  parsing and emits for IPv4-mapped addresses, is not modelled: the codec
  here covers the pure colon-hex grammar.
* `u8::from_str`: an optional leading `+`, then decimal digits, value below
  256.
* `str::trim`: whitespace stripped from both ends (modelled over the ASCII
  whitespace characters). -/

/-- Canonical character of a decimal digit. -/
def digitChar : Nat → Char
  | 0 => '0' | 1 => '1' | 2 => '2' | 3 => '3' | 4 => '4'
  | 5 => '5' | 6 => '6' | 7 => '7' | 8 => '8' | 9 => '9'
  | _ => '*'

/-- Canonical (lowercase) character of a hexadecimal digit. -/
def hexChar : Nat → Char
  | 10 => 'a' | 11 => 'b' | 12 => 'c' | 13 => 'd' | 14 => 'e' | 15 => 'f'
  | d => digitChar d

/-- Numeric value of a decimal digit character. -/
def digitVal (c : Char) : Nat := c.toNat - 48

/-- Numeric value of a hexadecimal digit character (either case). -/
def hexDigitVal (c : Char) : Nat :=
  if c.toNat ≤ 57 then c.toNat - 48
  else if c.toNat ≤ 70 then c.toNat - 55
  else c.toNat - 87

/-- Hexadecimal digit test (`char::is_ascii_hexdigit`). -/
def isHexDigit (c : Char) : Bool :=
  c.isDigit || ('a' ≤ c && c ≤ 'f') || ('A' ≤ c && c ≤ 'F')

/-- Canonical decimal rendering of a number (most significant digit first). -/
def decStr (n : Nat) : List Char :=
  if n = 0 then ['0'] else (Nat.digits 10 n).reverse.map digitChar

/-- Canonical lowercase hexadecimal rendering of a number. -/
def hexStr (n : Nat) : List Char :=
  if n = 0 then ['0'] else (Nat.digits 16 n).reverse.map hexChar

/-- Value of a decimal digit string (most significant digit first). -/
def decVal (l : List Char) : Nat := l.foldl (fun a c => 10 * a + digitVal c) 0

/-- Value of a hexadecimal digit string (most significant digit first). -/
def hexVal (l : List Char) : Nat := l.foldl (fun a c => 16 * a + hexDigitVal c) 0

/-- `u8::from_str`: optional `+` sign, then decimal digits, value `< 256`. -/
def stripPlus (l : List Char) : List Char :=
  match l with
  | c :: rest => if c = '+' then rest else c :: rest
  | [] => []

def parseU8 (l : List Char) : Option Nat :=
  if !(stripPlus l).isEmpty && (stripPlus l).all Char.isDigit &&
      decide (decVal (stripPlus l) < 256) then
    some (decVal (stripPlus l))
  else none

/-- A valid `Ipv4Addr` octet: 1-3 decimal digits, no leading zero (except
the single digit `0`), value at most 255. -/
def validOctet (l : List Char) : Bool :=
  !l.isEmpty && l.all Char.isDigit && decide (l.length ≤ 3) &&
    (!(l.head? == some '0') || l.length == 1) && decide (decVal l ≤ 255)

/-- `str::split` on a one-character separator: always at least one piece,
empty pieces between adjacent separators. -/
def splitOnChar (sep : Char) : List Char → List (List Char)
  | [] => [[]]
  | c :: cs =>
    if c = sep then [] :: splitOnChar sep cs
    else
      match splitOnChar sep cs with
      | [] => [[c]]
      | h :: t => (c :: h) :: t

/-- Join pieces with a one-character separator (inverse of `splitOnChar`). -/
def joinSep (sep : Char) : List (List Char) → List Char
  | [] => []
  | [x] => x
  | x :: xs => x ++ sep :: joinSep sep xs

/-- `str::trim`: strip whitespace from both ends. -/
def trim (l : List Char) : List Char :=
  ((l.dropWhile Char.isWhitespace).reverse.dropWhile Char.isWhitespace).reverse

/-- `Ipv4Addr` display: the dotted quad, one canonical decimal per byte. -/
def fmtV4addr (ip : Nat) : List Char :=
  decStr (ip / 2 ^ 24 % 256) ++ '.' :: (decStr (ip / 2 ^ 16 % 256) ++
    '.' :: (decStr (ip / 2 ^ 8 % 256) ++ '.' :: decStr (ip % 256)))

/-- `Ipv4Addr` parsing: exactly four valid octets separated by dots. -/
def parseV4addr (l : List Char) : Option Nat :=
  match splitOnChar '.' l with
  | [a, b, c, d] =>
    if validOctet a && validOctet b && validOctet c && validOctet d then
      some (decVal a * 2 ^ 24 + decVal b * 2 ^ 16 + decVal c * 2 ^ 8 + decVal d)
    else none
  | _ => none

/-- The eight 16-bit groups of an IPv6 address, most significant first. -/
def groupsV6 (ip : Nat) : List Nat :=
  [ip / 2 ^ 112 % 65536, ip / 2 ^ 96 % 65536, ip / 2 ^ 80 % 65536,
   ip / 2 ^ 64 % 65536, ip / 2 ^ 48 % 65536, ip / 2 ^ 32 % 65536,
   ip / 2 ^ 16 % 65536, ip % 65536]

/-- Length of the zero-group run starting at the head. -/
def zrun (gs : List Nat) : Nat := (gs.takeWhile (fun g => g == 0)).length

/-- Leftmost longest run of at least two zero groups: `some (start, len)`
with `start` counted from the initial index `i`.  A longer run strictly
beats an earlier one; ties keep the leftmost, as in the standard library's
`Ipv6Addr` formatting. -/
def bestRun : List Nat → Nat → Option (Nat × Nat)
  | [], _ => none
  | g :: gs, i =>
    if g == 0 then
      match bestRun gs (i + 1) with
      | none => if 2 ≤ zrun (g :: gs) then some (i, zrun (g :: gs)) else none
      | some (j, m) =>
        if 2 ≤ zrun (g :: gs) ∧ m ≤ zrun (g :: gs) then some (i, zrun (g :: gs))
        else some (j, m)
    else bestRun gs (i + 1)

/-- `Ipv6Addr` display on a group list: compress the leftmost longest zero
run (of length at least 2) to `::`, lowercase hex groups elsewhere. -/
def fmtV6Groups (gs : List Nat) : List Char :=
  match bestRun gs 0 with
  | none => joinSep ':' (gs.map hexStr)
  | some (i, k) =>
    joinSep ':' ((gs.take i).map hexStr) ++
      ':' :: ':' :: joinSep ':' ((gs.drop (i + k)).map hexStr)

/-- `Ipv6Addr` display. -/
def fmtV6addr (ip : Nat) : List Char := fmtV6Groups (groupsV6 ip)

/-- Split at the first `::`, if any. -/
def findDC : List Char → Option (List Char × List Char)
  | [] => none
  | [_] => none
  | a :: b :: rest =>
    if a = ':' ∧ b = ':' then some ([], rest)
    else (findDC (b :: rest)).map (fun x => (a :: x.1, x.2))

/-- A valid IPv6 group: 1-4 hexadecimal digits. -/
def validGroup (l : List Char) : Bool :=
  !l.isEmpty && decide (l.length ≤ 4) && l.all isHexDigit

/-- Parse a (possibly empty) colon-separated group sequence. -/
def parseGroups (l : List Char) : Option (List Nat) :=
  if l.isEmpty then some []
  else
    let ps := splitOnChar ':' l
    if ps.all validGroup then some (ps.map hexVal) else none

/-- Value of a group list (most significant first). -/
def v6val (gs : List Nat) : Nat := gs.foldl (fun a g => a * 65536 + g) 0

/-- `Ipv6Addr` parsing (colon-hex grammar; embedded IPv4 not modelled):
without `::` exactly eight groups; with one `::` the head and tail parts
carry at most seven groups in total and `::` stands for the missing zero
groups. -/
def parseV6addr (l : List Char) : Option Nat :=
  match findDC l with
  | none =>
    match parseGroups l with
    | some gs => if gs.length == 8 then some (v6val gs) else none
    | none => none
  | some (bef, aft) =>
    match parseGroups bef, parseGroups aft with
    | some h, some t =>
      if h.length + t.length ≤ 7 then
        some (v6val (h ++ List.replicate (8 - h.length - t.length) 0 ++ t))
      else none
    | _, _ => none

/-- `enum RangeParseError` (src/main.rs:60-65); the `AddrParseError` payload
of `IpInvalid` carries no information used by the program and is dropped. -/
inductive RangeParseError where
  | moreThanOneSlash
  | ipInvalid
  | cidrInvalid
deriving DecidableEq, Repr

/-- `impl FromStr for Ipv4Range` (src/main.rs:184-211): trim, split on `/`;
with one piece a bare address (prefix length 32), with two pieces an
address and a `u8` prefix length at most 32 (then normalized), otherwise
`MoreThanOneSlash`.  An invalid address wins over an invalid prefix
length (the `(1..=2, Err(e))` arm is first). -/
def fromStrV4 (s : List Char) : Except RangeParseError IpRange :=
  match splitOnChar '/' (trim s) with
  | [a] =>
    match parseV4addr a with
    | none => .error .ipInvalid
    | some i => .ok ⟨i, 32⟩
  | [a, c] =>
    match parseV4addr a with
    | none => .error .ipInvalid
    | some i =>
      match parseU8 c with
      | none => .error .cidrInvalid
      | some n => if n ≤ 32 then .ok (normalize 32 ⟨i, n⟩) else .error .cidrInvalid
  | _ => .error .moreThanOneSlash

/-- `impl FromStr for Ipv6Range` (src/main.rs:213-241): as `fromStrV4` with
IPv6 addresses and prefix lengths at most 128 — except that the bare-address
arm (src/main.rs:220-223) sets `cidr: 32`, not 128. -/
def fromStrV6 (s : List Char) : Except RangeParseError IpRange :=
  match splitOnChar '/' (trim s) with
  | [a] =>
    match parseV6addr a with
    | none => .error .ipInvalid
    | some i => .ok ⟨i, 32⟩
  | [a, c] =>
    match parseV6addr a with
    | none => .error .ipInvalid
    | some i =>
      match parseU8 c with
      | none => .error .cidrInvalid
      | some n => if n ≤ 128 then .ok (normalize 128 ⟨i, n⟩) else .error .cidrInvalid
  | _ => .error .moreThanOneSlash

/-- `impl fmt::Display for Ipv4Range` (src/main.rs:172-176). -/
def fmtRangeV4 (r : IpRange) : List Char := fmtV4addr r.ip ++ '/' :: decStr r.cidr

/-- `impl fmt::Display for Ipv6Range` (src/main.rs:178-182). -/
def fmtRangeV6 (r : IpRange) : List Char := fmtV6addr r.ip ++ '/' :: decStr r.cidr

/-! ### Digit-level lemmas -/

theorem digitChar_facts (d : Nat) (h : d < 10) :
    digitVal (digitChar d) = d ∧ (digitChar d).isDigit = true := by
  interval_cases d <;> decide

theorem hexChar_facts (d : Nat) (h : d < 16) :
    hexDigitVal (hexChar d) = d ∧ isHexDigit (hexChar d) = true := by
  interval_cases d <;> decide

theorem digitChar_ne_zero (d : Nat) (h : d < 10) (h0 : d ≠ 0) :
    digitChar d ≠ '0' := by
  interval_cases d
  · exact absurd rfl h0
  all_goals decide

theorem isDigit_props (c : Char) (h : c.isDigit = true) :
    c.isWhitespace = false ∧ c ≠ '.' ∧ c ≠ '/' ∧ c ≠ ':' ∧ c ≠ '+' ∧
      isHexDigit c = true := by
  refine ⟨?_, ?_, ?_, ?_, ?_, ?_⟩
  · by_cases h1 : c = ' '
    · subst h1; exact absurd h (by decide)
    by_cases h2 : c = '\t'
    · subst h2; exact absurd h (by decide)
    by_cases h3 : c = '\r'
    · subst h3; exact absurd h (by decide)
    by_cases h4 : c = '\n'
    · subst h4; exact absurd h (by decide)
    simp [Char.isWhitespace, h1, h2, h3, h4]
  · intro hc; subst hc; exact absurd h (by decide)
  · intro hc; subst hc; exact absurd h (by decide)
  · intro hc; subst hc; exact absurd h (by decide)
  · intro hc; subst hc; exact absurd h (by decide)
  · simp [isHexDigit, h]

theorem isHexDigit_props (c : Char) (h : isHexDigit c = true) :
    c.isWhitespace = false ∧ c ≠ ':' ∧ c ≠ '/' ∧ c ≠ '+' := by
  have hrange : (48 ≤ c.toNat ∧ c.toNat ≤ 57) ∨ (97 ≤ c.toNat ∧ c.toNat ≤ 102) ∨
      (65 ≤ c.toNat ∧ c.toNat ≤ 70) := by
    simp only [isHexDigit, Bool.or_eq_true, Bool.and_eq_true, decide_eq_true_eq] at h
    rcases h with (h | h) | h
    · left
      simp only [Char.isDigit, Bool.and_eq_true, decide_eq_true_eq] at h
      exact ⟨h.1, h.2⟩
    · right; left; exact ⟨h.1, h.2⟩
    · right; right; exact ⟨h.1, h.2⟩
  refine ⟨?_, ?_, ?_, ?_⟩
  · by_cases h1 : c = ' '
    · subst h1; simp at hrange
    by_cases h2 : c = '\t'
    · subst h2; simp at hrange
    by_cases h3 : c = '\r'
    · subst h3; simp at hrange
    by_cases h4 : c = '\n'
    · subst h4; simp at hrange
    simp [Char.isWhitespace, h1, h2, h3, h4]
  · intro hc; subst hc; simp at hrange
  · intro hc; subst hc; simp at hrange
  · intro hc; subst hc; simp at hrange

theorem foldl_rev_digits (b : Nat) (f : Nat → Char) (g : Char → Nat)
    (L : List Nat) (hL : ∀ d ∈ L, g (f d) = d) (a : Nat) :
    (L.reverse.map f).foldl (fun x c => b * x + g c) a =
      a * b ^ L.length + Nat.ofDigits b L := by
  induction L generalizing a with
  | nil => simp [Nat.ofDigits]
  | cons d L ih =>
    have hd : g (f d) = d := hL d (by simp)
    have hL' : ∀ e ∈ L, g (f e) = e := fun e he => hL e (by simp [he])
    simp only [List.reverse_cons, List.map_append, List.foldl_append,
      List.map_cons, List.map_nil, List.foldl_cons, List.foldl_nil]
    rw [ih hL', hd, Nat.ofDigits_cons, List.length_cons]
    ring

theorem decVal_decStr (n : Nat) : decVal (decStr n) = n := by
  by_cases h : n = 0
  · subst h; rfl
  · rw [decStr, if_neg h]
    have hd : ∀ d ∈ Nat.digits 10 n, digitVal (digitChar d) = d := fun d hd =>
      (digitChar_facts d (Nat.digits_lt_base (by norm_num) hd)).1
    rw [decVal, foldl_rev_digits 10 digitChar digitVal _ hd 0]
    simp [Nat.ofDigits_digits]

theorem hexVal_hexStr (n : Nat) : hexVal (hexStr n) = n := by
  by_cases h : n = 0
  · subst h; rfl
  · rw [hexStr, if_neg h]
    have hd : ∀ d ∈ Nat.digits 16 n, hexDigitVal (hexChar d) = d := fun d hd =>
      (hexChar_facts d (Nat.digits_lt_base (by norm_num) hd)).1
    rw [hexVal, foldl_rev_digits 16 hexChar hexDigitVal _ hd 0]
    simp [Nat.ofDigits_digits]

theorem decStr_ne_nil (n : Nat) : decStr n ≠ [] := by
  by_cases h : n = 0
  · subst h; decide
  · rw [decStr, if_neg h]
    simp [Nat.digits_ne_nil_iff_ne_zero.mpr h]

theorem hexStr_ne_nil (n : Nat) : hexStr n ≠ [] := by
  by_cases h : n = 0
  · subst h; decide
  · rw [hexStr, if_neg h]
    simp [Nat.digits_ne_nil_iff_ne_zero.mpr h]

theorem decStr_chars (n : Nat) : ∀ c ∈ decStr n, c.isDigit = true := by
  intro c hc
  by_cases h : n = 0
  · subst h; simp [decStr] at hc; subst hc; decide
  · rw [decStr, if_neg h] at hc
    rw [List.mem_map] at hc
    obtain ⟨d, hd, rfl⟩ := hc
    rw [List.mem_reverse] at hd
    exact (digitChar_facts d (Nat.digits_lt_base (by norm_num) hd)).2

theorem hexStr_chars (n : Nat) : ∀ c ∈ hexStr n, isHexDigit c = true := by
  intro c hc
  by_cases h : n = 0
  · subst h; simp [hexStr] at hc; subst hc; decide
  · rw [hexStr, if_neg h] at hc
    rw [List.mem_map] at hc
    obtain ⟨d, hd, rfl⟩ := hc
    rw [List.mem_reverse] at hd
    exact (hexChar_facts d (Nat.digits_lt_base (by norm_num) hd)).2

theorem digits_len_le_of_lt (b n k : Nat) (hb : 1 < b) (h0 : n ≠ 0)
    (h : n < b ^ k) : (Nat.digits b n).length ≤ k := by
  by_contra hlen
  push_neg at hlen
  have h1 : b ^ (Nat.digits b n).length ≤ b * n :=
    Nat.base_pow_length_digits_le b n hb h0
  have h2 : b ^ (k + 1) ≤ b ^ (Nat.digits b n).length :=
    Nat.pow_le_pow_right (by omega) (by omega)
  have h3 : b * b ^ k ≤ b * n := by
    rw [← pow_succ']
    exact le_trans h2 h1
  have h4 : b ^ k ≤ n := Nat.le_of_mul_le_mul_left h3 (by omega)
  omega

theorem decStr_len_le (n k : Nat) (hk : 1 ≤ k) (h : n < 10 ^ k) :
    (decStr n).length ≤ k := by
  by_cases h0 : n = 0
  · subst h0; simpa [decStr] using hk
  · rw [decStr, if_neg h0]
    rw [List.length_map, List.length_reverse]
    exact digits_len_le_of_lt 10 n k (by norm_num) h0 h

theorem hexStr_len_le (n k : Nat) (hk : 1 ≤ k) (h : n < 16 ^ k) :
    (hexStr n).length ≤ k := by
  by_cases h0 : n = 0
  · subst h0; simpa [hexStr] using hk
  · rw [hexStr, if_neg h0]
    rw [List.length_map, List.length_reverse]
    exact digits_len_le_of_lt 16 n k (by norm_num) h0 h

theorem decStr_head_zero (n : Nat) (h : (decStr n).head? = some '0') : n = 0 := by
  by_contra h0
  rw [decStr, if_neg h0] at h
  have hne : Nat.digits 10 n ≠ [] := Nat.digits_ne_nil_iff_ne_zero.mpr h0
  have hrev : (Nat.digits 10 n).reverse ≠ [] := by simpa using hne
  obtain ⟨d, ds, hds⟩ := List.exists_cons_of_ne_nil hrev
  rw [hds] at h
  simp only [List.map_cons, List.head?_cons, Option.some_inj] at h
  have hdmem : d ∈ Nat.digits 10 n := by
    rw [← List.mem_reverse, hds]; simp
  have hdlt : d < 10 := Nat.digits_lt_base (by norm_num) hdmem
  have hdlast : d = (Nat.digits 10 n).getLast hne := by
    have := List.head?_reverse (Nat.digits 10 n)
    rw [hds] at this
    simp only [List.head?_cons] at this
    rw [List.getLast?_eq_getLast _ hne] at this
    exact Option.some_inj.mp this
  have hdnz : d ≠ 0 := by
    rw [hdlast]
    exact Nat.getLast_digit_ne_zero 10 h0
  exact digitChar_ne_zero d hdlt hdnz h

/-! ### Split, join and trim -/

theorem splitOnChar_ne_nil (sep : Char) (l : List Char) :
    splitOnChar sep l ≠ [] := by
  cases l with
  | nil => simp [splitOnChar]
  | cons c cs =>
    rw [splitOnChar]
    by_cases h : c = sep
    · simp [h]
    · rw [if_neg h]
      cases hsplit : splitOnChar sep cs with
      | nil => simp
      | cons x xs => simp

theorem splitOnChar_not_mem (sep : Char) (l : List Char) (h : sep ∉ l) :
    splitOnChar sep l = [l] := by
  induction l with
  | nil => rfl
  | cons c cs ih =>
    have hc : c ≠ sep := fun hc => h (hc ▸ List.mem_cons_self c cs)
    have hcs : sep ∉ cs := fun hcs => h (List.mem_cons_of_mem c hcs)
    rw [splitOnChar, if_neg hc, ih hcs]

theorem splitOnChar_append (sep : Char) (A B : List Char) (h : sep ∉ A) :
    splitOnChar sep (A ++ sep :: B) = A :: splitOnChar sep B := by
  induction A with
  | nil => simp [splitOnChar]
  | cons a A ih =>
    have ha : a ≠ sep := fun ha => h (ha ▸ List.mem_cons_self a A)
    have hA : sep ∉ A := fun hA => h (List.mem_cons_of_mem a hA)
    rw [List.cons_append, splitOnChar, if_neg ha, ih hA]

theorem splitOnChar_length (sep : Char) (l : List Char) :
    (splitOnChar sep l).length = l.count sep + 1 := by
  induction l with
  | nil => simp [splitOnChar]
  | cons c cs ih =>
    rw [splitOnChar]
    by_cases h : c = sep
    · subst h
      rw [if_pos rfl]
      simp only [List.length_cons, ih, List.count_cons]
      simp
    · rw [if_neg h]
      cases hsplit : splitOnChar sep cs with
      | nil => exact absurd hsplit (splitOnChar_ne_nil sep cs)
      | cons x xs =>
        rw [hsplit] at ih
        simp only [List.length_cons] at ih ⊢
        rw [List.count_cons]
        simp only [beq_iff_eq]
        rw [if_neg h]
        omega

theorem splitOnChar_joinSep (sep : Char) (ps : List (List Char))
    (hne : ps ≠ []) (h : ∀ p ∈ ps, sep ∉ p) :
    splitOnChar sep (joinSep sep ps) = ps := by
  induction ps with
  | nil => exact absurd rfl hne
  | cons p ps ih =>
    cases ps with
    | nil => exact splitOnChar_not_mem sep p (h p (by simp))
    | cons q qs =>
      rw [joinSep, splitOnChar_append sep p _ (h p (by simp)),
        ih (List.cons_ne_nil q qs) (fun x hx => h x (List.mem_cons_of_mem p hx))]
      intro hcontra
      exact List.noConfusion hcontra

theorem dropWhile_eq_self_of_all (p : Char → Bool) (l : List Char)
    (h : ∀ c ∈ l, p c = false) : l.dropWhile p = l := by
  cases l with
  | nil => rfl
  | cons c cs => simp [List.dropWhile_cons, h c (by simp)]

theorem trim_eq_self (l : List Char) (h : ∀ c ∈ l, c.isWhitespace = false) :
    trim l = l := by
  rw [trim, dropWhile_eq_self_of_all _ l h,
    dropWhile_eq_self_of_all _ l.reverse (fun c hc => h c (List.mem_reverse.mp hc)),
    List.reverse_reverse]

/-! ### IPv4 address round-trip -/

theorem validOctet_decStr (o : Nat) (h : o ≤ 255) :
    validOctet (decStr o) = true := by
  rw [validOctet]
  simp only [Bool.and_eq_true, Bool.or_eq_true, decide_eq_true_eq]
  refine ⟨⟨⟨⟨?_, ?_⟩, ?_⟩, ?_⟩, ?_⟩
  · simp [decStr_ne_nil o]
  · rw [List.all_eq_true]
    intro c hc
    exact decStr_chars o c hc
  · exact decStr_len_le o 3 (by norm_num) (by omega)
  · by_cases h0 : (decStr o).head? = some '0'
    · have : o = 0 := decStr_head_zero o h0
      subst this
      simp [decStr]
    · left
      simp only [Bool.not_eq_true']
      rw [beq_eq_false_iff_ne]
      exact h0
  · rw [decVal_decStr]
    exact h

theorem stripPlus_eq_self (l : List Char) (h : ∀ c ∈ l, c ≠ '+') :
    stripPlus l = l := by
  cases l with
  | nil => rfl
  | cons c cs => rw [stripPlus, if_neg (h c (by simp))]

theorem parseU8_decStr (n : Nat) (h : n < 256) : parseU8 (decStr n) = some n := by
  have hstrip : stripPlus (decStr n) = decStr n :=
    stripPlus_eq_self _ (fun c hc =>
      (isDigit_props c (decStr_chars n c hc)).2.2.2.2.1)
  have hall : (decStr n).all Char.isDigit = true := by
    rw [List.all_eq_true]; exact decStr_chars n
  have hne : (decStr n).isEmpty = false := by
    cases hx : decStr n with
    | nil => exact absurd hx (decStr_ne_nil n)
    | cons a l => rfl
  rw [parseU8, hstrip, decVal_decStr]
  simp [hall, hne, h]

theorem fmtV4addr_chars (ip : Nat) :
    ∀ c ∈ fmtV4addr ip, c.isDigit = true ∨ c = '.' := by
  intro c hc
  rw [fmtV4addr] at hc
  simp only [List.mem_append, List.mem_cons] at hc
  rcases hc with h | h | h | h | h | h | h
  · exact Or.inl (decStr_chars _ c h)
  · exact Or.inr h
  · exact Or.inl (decStr_chars _ c h)
  · exact Or.inr h
  · exact Or.inl (decStr_chars _ c h)
  · exact Or.inr h
  · exact Or.inl (decStr_chars _ c h)

theorem fmtV4addr_no_slash (ip : Nat) : '/' ∉ fmtV4addr ip := by
  intro hmem
  rcases fmtV4addr_chars ip '/' hmem with h | h
  · exact absurd h (by decide)
  · exact absurd h (by decide)

theorem fmtV4addr_no_ws (ip : Nat) :
    ∀ c ∈ fmtV4addr ip, c.isWhitespace = false := by
  intro c hc
  rcases fmtV4addr_chars ip c hc with h | h
  · exact (isDigit_props c h).1
  · subst h; decide

theorem fmtV4addr_no_dot_decStr (n : Nat) : '.' ∉ decStr n := by
  intro hmem
  have := decStr_chars n '.' hmem
  exact absurd this (by decide)

theorem parseV4addr_eq_of_split (l : List Char) (A B C D : List Char)
    (hs : splitOnChar '.' l = [A, B, C, D]) :
    parseV4addr l =
      if validOctet A && validOctet B && validOctet C && validOctet D then
        some (decVal A * 2 ^ 24 + decVal B * 2 ^ 16 + decVal C * 2 ^ 8 + decVal D)
      else none := by
  rw [parseV4addr, hs]

theorem parseV4addr_fmt (ip : Nat) (h : ip < 2 ^ 32) :
    parseV4addr (fmtV4addr ip) = some ip := by
  have hsplit : splitOnChar '.' (fmtV4addr ip) =
      [decStr (ip / 2 ^ 24 % 256), decStr (ip / 2 ^ 16 % 256),
        decStr (ip / 2 ^ 8 % 256), decStr (ip % 256)] := by
    rw [fmtV4addr]
    rw [splitOnChar_append '.' _ _ (fmtV4addr_no_dot_decStr _),
      splitOnChar_append '.' _ _ (fmtV4addr_no_dot_decStr _),
      splitOnChar_append '.' _ _ (fmtV4addr_no_dot_decStr _),
      splitOnChar_not_mem '.' _ (fmtV4addr_no_dot_decStr _)]
  rw [parseV4addr_eq_of_split _ _ _ _ _ hsplit]
  have h1 : ip / 2 ^ 24 % 256 ≤ 255 := by omega
  have h2 : ip / 2 ^ 16 % 256 ≤ 255 := by omega
  have h3 : ip / 2 ^ 8 % 256 ≤ 255 := by omega
  have h4 : ip % 256 ≤ 255 := by omega
  rw [validOctet_decStr _ h1, validOctet_decStr _ h2, validOctet_decStr _ h3,
    validOctet_decStr _ h4]
  simp only [Bool.and_self, if_true]
  rw [decVal_decStr, decVal_decStr, decVal_decStr, decVal_decStr]
  congr 1
  omega

/-! ### IPv6 address round-trip -/

theorem findDC_cons₂ (a b : Char) (rest : List Char) :
    findDC (a :: b :: rest) =
      if a = ':' ∧ b = ':' then some ([], rest)
      else (findDC (b :: rest)).map (fun x => (a :: x.1, x.2)) := rfl

theorem findDC_none_chain (l : List Char)
    (h : l.Chain' (fun a b => ¬(a = ':' ∧ b = ':'))) : findDC l = none := by
  induction l with
  | nil => rfl
  | cons a t ih =>
    cases t with
    | nil => rfl
    | cons b rest =>
      rw [findDC_cons₂, if_neg (List.chain'_cons.mp h).1,
        ih (List.chain'_cons.mp h).2]
      rfl

theorem findDC_split (A B : List Char)
    (hA : A.Chain' (fun a b => ¬(a = ':' ∧ b = ':')))
    (hlast : ∀ c, A.getLast? = some c → c ≠ ':') :
    findDC (A ++ ':' :: ':' :: B) = some (A, B) := by
  induction A with
  | nil => simp [findDC_cons₂]
  | cons a A ih =>
    cases A with
    | nil =>
      have ha : a ≠ ':' := hlast a rfl
      rw [List.cons_append, List.nil_append, findDC_cons₂,
        if_neg (fun hx => ha hx.1)]
      rfl
    | cons a' A' =>
      have hR : ¬(a = ':' ∧ a' = ':') := (List.chain'_cons.mp hA).1
      have hrec : findDC (a' :: (A' ++ ':' :: ':' :: B)) = some (a' :: A', B) := by
        have := ih (List.chain'_cons.mp hA).2 (fun c hc => hlast c
          (by rw [List.getLast?_cons_cons]; exact hc))
        rw [List.cons_append] at this
        exact this
      rw [List.cons_append, List.cons_append, findDC_cons₂, if_neg hR, hrec]
      rfl

theorem chain'_of_no_colon (l : List Char) (h : ∀ c ∈ l, c ≠ ':') :
    l.Chain' (fun a b => ¬(a = ':' ∧ b = ':')) := by
  induction l with
  | nil => exact List.chain'_nil
  | cons a t ih =>
    cases t with
    | nil => simp
    | cons b rest =>
      rw [List.chain'_cons]
      exact ⟨fun hx => h a (by simp) hx.1,
        ih (fun c hc => h c (List.mem_cons_of_mem a hc))⟩

theorem joinSep_head (sep : Char) (q : List Char) (qs : List (List Char))
    (hq : q ≠ []) : (joinSep sep (q :: qs)).head? = q.head? := by
  cases qs with
  | nil => rfl
  | cons r rs =>
    show (q ++ sep :: joinSep sep (r :: rs)).head? = q.head?
    cases q with
    | nil => exact absurd rfl hq
    | cons c cs => rfl

theorem joinSep_ne_nil (sep : Char) (q : List Char) (qs : List (List Char))
    (hq : q ≠ []) : joinSep sep (q :: qs) ≠ [] := by
  cases qs with
  | nil => exact hq
  | cons r rs =>
    show q ++ sep :: joinSep sep (r :: rs) ≠ []
    simp

theorem joinSep_chain (ps : List (List Char))
    (h : ∀ p ∈ ps, p ≠ [] ∧ ∀ c ∈ p, c ≠ ':') :
    (joinSep ':' ps).Chain' (fun a b => ¬(a = ':' ∧ b = ':')) := by
  induction ps with
  | nil => exact List.chain'_nil
  | cons p ps ih =>
    cases ps with
    | nil => exact chain'_of_no_colon p (h p (by simp)).2
    | cons q qs =>
      show List.Chain' _ (p ++ ':' :: joinSep ':' (q :: qs))
      rw [List.chain'_append]
      refine ⟨chain'_of_no_colon p (h p (by simp)).2, ?_, ?_⟩
      · rw [List.chain'_cons']
        refine ⟨?_, ih (fun x hx => h x (List.mem_cons_of_mem p hx))⟩
        intro y hy hxy
        have hqne : q ≠ [] := (h q (by simp)).1
        rw [joinSep_head ':' q qs hqne] at hy
        obtain ⟨c, cs, rfl⟩ := List.exists_cons_of_ne_nil hqne
        simp only [List.head?_cons, Option.mem_def, Option.some_inj] at hy
        exact (h (c :: cs) (by simp)).2 y (by rw [← hy]; simp) hxy.2
      · intro x hx y hy
        intro hxy
        have hpne : p ≠ [] := (h p (by simp)).1
        have hxp : x ∈ p := List.mem_of_mem_getLast? hx
        exact (h p (by simp)).2 x hxp hxy.1

theorem joinSep_getLast (sep : Char) (p : List Char) (ps : List (List Char))
    (h : ∀ x ∈ p :: ps, x ≠ []) :
    ∃ q ∈ p :: ps, (joinSep sep (p :: ps)).getLast? = q.getLast? := by
  induction ps generalizing p with
  | nil => exact ⟨p, by simp, rfl⟩
  | cons q qs ih =>
    obtain ⟨r, hr, hlast⟩ := ih q (fun x hx => h x (List.mem_cons_of_mem p hx))
    refine ⟨r, List.mem_cons_of_mem p hr, ?_⟩
    have hqne : q ≠ [] := h q (by simp)
    obtain ⟨c, cs, hJ⟩ := List.exists_cons_of_ne_nil (joinSep_ne_nil sep q qs hqne)
    show (p ++ sep :: joinSep sep (q :: qs)).getLast? = r.getLast?
    rw [hJ] at hlast ⊢
    rw [List.getLast?_append, List.getLast?_cons_cons,
      List.getLast?_eq_getLast _ (List.cons_ne_nil c cs)]
    rw [List.getLast?_eq_getLast _ (List.cons_ne_nil c cs)] at hlast
    exact hlast

theorem hexStr_no_colon (n : Nat) : ∀ c ∈ hexStr n, c ≠ ':' := fun c hc =>
  (isHexDigit_props c (hexStr_chars n c hc)).2.1

theorem validGroup_hexStr (g : Nat) (h : g < 65536) :
    validGroup (hexStr g) = true := by
  rw [validGroup]
  simp only [Bool.and_eq_true, decide_eq_true_eq]
  refine ⟨⟨?_, ?_⟩, ?_⟩
  · simp [hexStr_ne_nil g]
  · exact hexStr_len_le g 4 (by norm_num) (by norm_num; omega)
  · rw [List.all_eq_true]
    exact hexStr_chars g

theorem parseGroups_join (gs : List Nat) (h : ∀ g ∈ gs, g < 65536) :
    parseGroups (joinSep ':' (gs.map hexStr)) = some gs := by
  cases gs with
  | nil => rfl
  | cons g gs' =>
    have hpieces : ∀ p ∈ (g :: gs').map hexStr, ':' ∉ p := by
      intro p hp hcp
      rw [List.mem_map] at hp
      obtain ⟨x, _, rfl⟩ := hp
      exact hexStr_no_colon x ':' hcp rfl
    have hne : joinSep ':' ((g :: gs').map hexStr) ≠ [] := by
      rw [List.map_cons]
      exact joinSep_ne_nil ':' _ _ (hexStr_ne_nil g)
  -- reduce the isEmpty test, then the split
    rw [parseGroups]
    rw [if_neg (by simpa [List.isEmpty_iff] using hne)]
    have hsplit : splitOnChar ':' (joinSep ':' ((g :: gs').map hexStr)) =
        (g :: gs').map hexStr :=
      splitOnChar_joinSep ':' _ (by simp) hpieces
    simp only [hsplit]
    have hall : ((g :: gs').map hexStr).all validGroup = true := by
      rw [List.all_eq_true]
      intro p hp
      rw [List.mem_map] at hp
      obtain ⟨x, hx, rfl⟩ := hp
      exact validGroup_hexStr x (h x hx)
    rw [hall]
    simp only [if_true]
    congr 1
    rw [List.map_map]
    have : (hexVal ∘ hexStr) = fun x => hexVal (hexStr x) := rfl
    rw [this]
    calc ((g :: gs').map fun x => hexVal (hexStr x)) =
        (g :: gs').map id := List.map_congr_left (fun x _ => hexVal_hexStr x)
      _ = g :: gs' := List.map_id _

/-! ### Zero runs and `bestRun` soundness -/

theorem zrun_spec (l : List Nat) :
    zrun l ≤ l.length ∧ l.take (zrun l) = List.replicate (zrun l) 0 := by
  induction l with
  | nil => simp [zrun]
  | cons g gs ih =>
    by_cases hg : g = 0
    · subst hg
      have hz : zrun (0 :: gs) = zrun gs + 1 := by
        simp [zrun, List.takeWhile_cons]
      rw [hz]
      refine ⟨by simpa using ih.1, ?_⟩
      rw [List.take_succ_cons, List.replicate_succ, ih.2]
    · have hz : zrun (g :: gs) = 0 := by
        simp [zrun, List.takeWhile_cons, hg]
      rw [hz]
      simp

theorem bestRun_sound (gs : List Nat) : ∀ (i0 j m : Nat),
    bestRun gs i0 = some (j, m) →
    i0 ≤ j ∧ (j - i0) + m ≤ gs.length ∧ 2 ≤ m ∧
      (gs.drop (j - i0)).take m = List.replicate m 0 := by
  induction gs with
  | nil => intro i0 j m h; exact absurd h (by simp [bestRun])
  | cons g gs ih =>
    intro i0 j m h
    rw [bestRun] at h
    by_cases hg : (g == 0) = true
    · rw [if_pos hg] at h
      cases hrest : bestRun gs (i0 + 1) with
      | none =>
        rw [hrest] at h
        have h' : (if 2 ≤ zrun (g :: gs) then
            some (i0, zrun (g :: gs)) else none) = some (j, m) := h
        by_cases hk : 2 ≤ zrun (g :: gs)
        · rw [if_pos hk, Option.some_inj, Prod.mk.injEq] at h'
          obtain ⟨rfl, rfl⟩ := h'
          have hz := zrun_spec (g :: gs)
          refine ⟨le_refl i0, by omega, hk, ?_⟩
          simpa using hz.2
        · rw [if_neg hk] at h'
          exact absurd h' (by simp)
      | some jm =>
        obtain ⟨j', m'⟩ := jm
        rw [hrest] at h
        have h' : (if 2 ≤ zrun (g :: gs) ∧ m' ≤ zrun (g :: gs) then
            some (i0, zrun (g :: gs)) else some (j', m')) = some (j, m) := h
        by_cases hcond : 2 ≤ zrun (g :: gs) ∧ m' ≤ zrun (g :: gs)
        · rw [if_pos hcond, Option.some_inj, Prod.mk.injEq] at h'
          obtain ⟨rfl, rfl⟩ := h'
          have hz := zrun_spec (g :: gs)
          refine ⟨le_refl i0, by omega, hcond.1, ?_⟩
          simpa using hz.2
        · rw [if_neg hcond, Option.some_inj, Prod.mk.injEq] at h'
          obtain ⟨rfl, rfl⟩ := h'
          obtain ⟨h1, h2, h3, h4⟩ := ih (i0 + 1) j' m' hrest
          refine ⟨by omega, by simp only [List.length_cons]; omega, h3, ?_⟩
          have hji : j' - i0 = (j' - (i0 + 1)) + 1 := by omega
          rw [hji, List.drop_succ_cons]
          exact h4
    · rw [if_neg hg] at h
      obtain ⟨h1, h2, h3, h4⟩ := ih (i0 + 1) j m h
      refine ⟨by omega, by simp only [List.length_cons]; omega, h3, ?_⟩
      have hji : j - i0 = (j - (i0 + 1)) + 1 := by omega
      rw [hji, List.drop_succ_cons]
      exact h4

theorem parseV6addr_eq_none_dc (l : List Char) (hs : findDC l = none) :
    parseV6addr l =
      match parseGroups l with
      | some gs => if gs.length == 8 then some (v6val gs) else none
      | none => none := by
  rw [parseV6addr, hs]

theorem parseV6addr_eq_of_dc (l A B : List Char) (hs : findDC l = some (A, B)) :
    parseV6addr l =
      match parseGroups A, parseGroups B with
      | some h, some t =>
        if h.length + t.length ≤ 7 then
          some (v6val (h ++ List.replicate (8 - h.length - t.length) 0 ++ t))
        else none
      | _, _ => none := by
  rw [parseV6addr, hs]

theorem parseV6addr_fmtGroups (gs : List Nat) (hlen : gs.length = 8)
    (hb : ∀ g ∈ gs, g < 65536) :
    parseV6addr (fmtV6Groups gs) = some (v6val gs) := by
  cases hbr : bestRun gs 0 with
  | none =>
    have hfmt : fmtV6Groups gs = joinSep ':' (gs.map hexStr) := by
      rw [fmtV6Groups, hbr]
    have hpieces : ∀ p ∈ gs.map hexStr, p ≠ [] ∧ ∀ c ∈ p, c ≠ ':' := by
      intro p hp
      rw [List.mem_map] at hp
      obtain ⟨x, _, rfl⟩ := hp
      exact ⟨hexStr_ne_nil x, hexStr_no_colon x⟩
    rw [hfmt, parseV6addr_eq_none_dc _ (findDC_none_chain _ (joinSep_chain _ hpieces))]
    simp only [parseGroups_join gs hb]
    simp [hlen]
  | some ik =>
    obtain ⟨i, k⟩ := ik
    obtain ⟨-, hik, hk2, hrun⟩ := bestRun_sound gs 0 i k hbr
    rw [Nat.sub_zero] at hik hrun
    rw [hlen] at hik
    have hfmt : fmtV6Groups gs =
        joinSep ':' ((gs.take i).map hexStr) ++
          ':' :: ':' :: joinSep ':' ((gs.drop (i + k)).map hexStr) := by
      rw [fmtV6Groups, hbr]
    have htake_pieces : ∀ p ∈ (gs.take i).map hexStr, p ≠ [] ∧ ∀ c ∈ p, c ≠ ':' := by
      intro p hp
      rw [List.mem_map] at hp
      obtain ⟨x, _, rfl⟩ := hp
      exact ⟨hexStr_ne_nil x, hexStr_no_colon x⟩
    have hAlast : ∀ c, (joinSep ':' ((gs.take i).map hexStr)).getLast? = some c →
        c ≠ ':' := by
      intro c hc
      cases hmap : (gs.take i).map hexStr with
      | nil => rw [hmap] at hc; simp [joinSep] at hc
      | cons p ps =>
        rw [hmap] at hc
        obtain ⟨q, hq, hql⟩ := joinSep_getLast ':' p ps (by
          intro x hx
          rw [← hmap, List.mem_map] at hx
          obtain ⟨y, _, rfl⟩ := hx
          exact hexStr_ne_nil y)
        rw [hql] at hc
        have hcq : c ∈ q := List.mem_of_mem_getLast? hc
        have hqmem : q ∈ (gs.take i).map hexStr := by rw [hmap]; exact hq
        rw [List.mem_map] at hqmem
        obtain ⟨y, _, rfl⟩ := hqmem
        exact hexStr_no_colon y c hcq
    have hfind : findDC (joinSep ':' ((gs.take i).map hexStr) ++
        ':' :: ':' :: joinSep ':' ((gs.drop (i + k)).map hexStr)) =
        some (joinSep ':' ((gs.take i).map hexStr),
          joinSep ':' ((gs.drop (i + k)).map hexStr)) :=
      findDC_split _ _ (joinSep_chain _ htake_pieces) hAlast
    have hgA : parseGroups (joinSep ':' ((gs.take i).map hexStr)) =
        some (gs.take i) :=
      parseGroups_join _ (fun g hg => hb g (List.mem_of_mem_take hg))
    have hgB : parseGroups (joinSep ':' ((gs.drop (i + k)).map hexStr)) =
        some (gs.drop (i + k)) :=
      parseGroups_join _ (fun g hg => hb g (List.mem_of_mem_drop hg))
    rw [hfmt, parseV6addr_eq_of_dc _ _ _ hfind]
    simp only [hgA, hgB]
    have hlA : (gs.take i).length = i := by
      rw [List.length_take, hlen]; omega
    have hlB : (gs.drop (i + k)).length = 8 - (i + k) := by
      rw [List.length_drop, hlen]
    rw [hlA, hlB, if_pos (show i + (8 - (i + k)) ≤ 7 by omega),
      show 8 - i - (8 - (i + k)) = k from by omega]
    have hdd : gs.drop (i + k) = (gs.drop i).drop k := by
      rw [List.drop_drop, Nat.add_comm]
    have hassemble : (gs.take i ++ List.replicate k 0) ++ gs.drop (i + k) = gs := by
      rw [← hrun, List.append_assoc, hdd, List.take_append_drop,
        List.take_append_drop]
    rw [hassemble]

theorem parseV6addr_fmt (ip : Nat) (h : ip < 2 ^ 128) :
    parseV6addr (fmtV6addr ip) = some ip := by
  rw [fmtV6addr, parseV6addr_fmtGroups (groupsV6 ip) rfl]
  · congr 1
    simp only [v6val, groupsV6, List.foldl_cons, List.foldl_nil]
    omega
  · intro g hg
    simp only [groupsV6, List.mem_cons, List.not_mem_nil, or_false] at hg
    rcases hg with rfl | rfl | rfl | rfl | rfl | rfl | rfl | rfl <;>
      exact Nat.mod_lt _ (by norm_num)

/-! ### Range-level parse/format round-trip -/

theorem joinSep_mem (sep : Char) (ps : List (List Char)) (c : Char)
    (hc : c ∈ joinSep sep ps) : c = sep ∨ ∃ p ∈ ps, c ∈ p := by
  induction ps with
  | nil => simp [joinSep] at hc
  | cons p ps ih =>
    cases ps with
    | nil => exact Or.inr ⟨p, by simp, hc⟩
    | cons q qs =>
      have hc' : c ∈ p ++ sep :: joinSep sep (q :: qs) := hc
      rcases List.mem_append.mp hc' with hp | hrest
      · exact Or.inr ⟨p, by simp, hp⟩
      · rcases List.mem_cons.mp hrest with rfl | hj
        · exact Or.inl rfl
        · rcases ih hj with h | ⟨x, hx, hcx⟩
          · exact Or.inl h
          · exact Or.inr ⟨x, List.mem_cons_of_mem p hx, hcx⟩

theorem fmtV6Groups_chars (gs : List Nat) :
    ∀ c ∈ fmtV6Groups gs, isHexDigit c = true ∨ c = ':' := by
  intro c hc
  have hpiece : ∀ (l : List Nat), c ∈ joinSep ':' (l.map hexStr) →
      isHexDigit c = true ∨ c = ':' := by
    intro l hcl
    rcases joinSep_mem ':' _ c hcl with h | ⟨p, hp, hcp⟩
    · exact Or.inr h
    · rw [List.mem_map] at hp
      obtain ⟨x, _, rfl⟩ := hp
      exact Or.inl (hexStr_chars x c hcp)
  rw [fmtV6Groups] at hc
  cases hbr : bestRun gs 0 with
  | none =>
    rw [hbr] at hc
    exact hpiece gs hc
  | some ik =>
    obtain ⟨i, k⟩ := ik
    rw [hbr] at hc
    have hc' : c ∈ joinSep ':' ((gs.take i).map hexStr) ++
        ':' :: ':' :: joinSep ':' ((gs.drop (i + k)).map hexStr) := hc
    rcases List.mem_append.mp hc' with h | h
    · exact hpiece (gs.take i) h
    · rcases List.mem_cons.mp h with rfl | h
      · exact Or.inr rfl
      · rcases List.mem_cons.mp h with rfl | h
        · exact Or.inr rfl
        · exact hpiece (gs.drop (i + k)) h

theorem fmtV6addr_no_slash (ip : Nat) : '/' ∉ fmtV6addr ip := by
  intro hmem
  rcases fmtV6Groups_chars (groupsV6 ip) '/' hmem with h | h
  · exact absurd h (by decide)
  · exact absurd h (by decide)

theorem fmtV6addr_no_ws (ip : Nat) :
    ∀ c ∈ fmtV6addr ip, c.isWhitespace = false := by
  intro c hc
  rcases fmtV6Groups_chars (groupsV6 ip) c hc with h | h
  · exact (isHexDigit_props c h).1
  · subst h; decide

theorem decStr_no_slash (n : Nat) : '/' ∉ decStr n := fun hmem =>
  absurd (decStr_chars n '/' hmem) (by decide)

theorem fromStrV4_eq_one (s : List Char) (a : List Char)
    (hs : splitOnChar '/' (trim s) = [a]) :
    fromStrV4 s =
      match parseV4addr a with
      | none => .error .ipInvalid
      | some i => .ok ⟨i, 32⟩ := by
  rw [fromStrV4, hs]

theorem fromStrV4_eq_two (s : List Char) (a c : List Char)
    (hs : splitOnChar '/' (trim s) = [a, c]) :
    fromStrV4 s =
      match parseV4addr a with
      | none => .error .ipInvalid
      | some i =>
        match parseU8 c with
        | none => .error .cidrInvalid
        | some n => if n ≤ 32 then .ok (normalize 32 ⟨i, n⟩)
            else .error .cidrInvalid := by
  rw [fromStrV4, hs]

theorem fromStrV4_eq_many (s : List Char) (a b c : List Char)
    (t : List (List Char)) (hs : splitOnChar '/' (trim s) = a :: b :: c :: t) :
    fromStrV4 s = .error .moreThanOneSlash := by
  rw [fromStrV4, hs]

theorem fromStrV6_eq_one (s : List Char) (a : List Char)
    (hs : splitOnChar '/' (trim s) = [a]) :
    fromStrV6 s =
      match parseV6addr a with
      | none => .error .ipInvalid
      | some i => .ok ⟨i, 32⟩ := by
  rw [fromStrV6, hs]

theorem fromStrV6_eq_two (s : List Char) (a c : List Char)
    (hs : splitOnChar '/' (trim s) = [a, c]) :
    fromStrV6 s =
      match parseV6addr a with
      | none => .error .ipInvalid
      | some i =>
        match parseU8 c with
        | none => .error .cidrInvalid
        | some n => if n ≤ 128 then .ok (normalize 128 ⟨i, n⟩)
            else .error .cidrInvalid := by
  rw [fromStrV6, hs]

theorem fromStrV4_fmt (r : IpRange) (h : WF 32 r) :
    fromStrV4 (fmtRangeV4 r) = .ok r := by
  obtain ⟨h1, h2, h3⟩ := h
  have hws : ∀ c ∈ fmtRangeV4 r, c.isWhitespace = false := by
    intro c hc
    rw [fmtRangeV4] at hc
    rcases List.mem_append.mp hc with hc | hc
    · exact fmtV4addr_no_ws r.ip c hc
    · rcases List.mem_cons.mp hc with rfl | hc
      · decide
      · exact (isDigit_props c (decStr_chars _ c hc)).1
  have hsplit : splitOnChar '/' (trim (fmtRangeV4 r)) =
      [fmtV4addr r.ip, decStr r.cidr] := by
    rw [trim_eq_self _ hws, fmtRangeV4,
      splitOnChar_append '/' _ _ (fmtV4addr_no_slash r.ip),
      splitOnChar_not_mem '/' _ (decStr_no_slash r.cidr)]
  rw [fromStrV4_eq_two _ _ _ hsplit]
  simp only [parseV4addr_fmt r.ip h1,
    parseU8_decStr r.cidr (show r.cidr < 256 by omega)]
  rw [if_pos h2]
  show Except.ok (normalize 32 r) = Except.ok r
  rw [normalize_of_WF 32 r ⟨h1, h2, h3⟩]

theorem fromStrV6_fmt (r : IpRange) (h : WF 128 r) :
    fromStrV6 (fmtRangeV6 r) = .ok r := by
  obtain ⟨h1, h2, h3⟩ := h
  have hws : ∀ c ∈ fmtRangeV6 r, c.isWhitespace = false := by
    intro c hc
    rw [fmtRangeV6] at hc
    rcases List.mem_append.mp hc with hc | hc
    · exact fmtV6addr_no_ws r.ip c hc
    · rcases List.mem_cons.mp hc with rfl | hc
      · decide
      · exact (isDigit_props c (decStr_chars _ c hc)).1
  have hsplit : splitOnChar '/' (trim (fmtRangeV6 r)) =
      [fmtV6addr r.ip, decStr r.cidr] := by
    rw [trim_eq_self _ hws, fmtRangeV6,
      splitOnChar_append '/' _ _ (fmtV6addr_no_slash r.ip),
      splitOnChar_not_mem '/' _ (decStr_no_slash r.cidr)]
  rw [fromStrV6_eq_two _ _ _ hsplit]
  simp only [parseV6addr_fmt r.ip h1,
    parseU8_decStr r.cidr (show r.cidr < 256 by omega)]
  rw [if_pos h2]
  show Except.ok (normalize 128 r) = Except.ok r
  rw [normalize_of_WF 128 r ⟨h1, h2, h3⟩]

/-- C1: for IPv4, parsing a valid slashless address string yields prefix
length 32 = W, as claimed.  For IPv6, `Ipv6Range::from_str`
(src/main.rs:220-223) also sets `cidr: 32` on slashless input instead of
the full width 128: parsing `"::1"` yields prefix length 32, not 128, so
the claim fails on the IPv6 side (a copy-paste bug from the IPv4
implementation). -/
theorem C1_slashless_prefix_len :
    (∀ s i, '/' ∉ trim s → parseV4addr (trim s) = some i →
      fromStrV4 s = .ok ⟨i, 32⟩) ∧
    (∀ s i, '/' ∉ trim s → parseV6addr (trim s) = some i →
      fromStrV6 s = .ok ⟨i, 32⟩) ∧
    fromStrV6 (String.toList "::1") = .ok ⟨1, 32⟩ ∧ (32 : Nat) ≠ 128 := by
  refine ⟨?_, ?_, rfl, by norm_num⟩
  · intro s i hns hp
    rw [fromStrV4_eq_one s (trim s) (splitOnChar_not_mem '/' _ hns)]
    simp only [hp]
  · intro s i hns hp
    rw [fromStrV6_eq_one s (trim s) (splitOnChar_not_mem '/' _ hns)]
    simp only [hp]

theorem C1_slashless_prefix_len_witness :
    fromStrV4 (String.toList "1.2.3.4") = .ok ⟨0x01020304, 32⟩ ∧
    fromStrV6 (String.toList "::2") = .ok ⟨2, 32⟩ :=
  ⟨C1_slashless_prefix_len.1 _ _ (by decide) (by decide),
   C1_slashless_prefix_len.2.1 _ _ (by decide) (by decide)⟩

/-- C7: parsing a canonical `address/len` string produced by the formatter
of a normalized range (IPv4 width 32, IPv6 width 128) succeeds and
re-formatting the parse result reproduces the input string exactly. -/
theorem C7_parse_format_roundtrip (r : IpRange) :
    (WF 32 r → ∃ r', fromStrV4 (fmtRangeV4 r) = .ok r' ∧
      fmtRangeV4 r' = fmtRangeV4 r) ∧
    (WF 128 r → ∃ r', fromStrV6 (fmtRangeV6 r) = .ok r' ∧
      fmtRangeV6 r' = fmtRangeV6 r) :=
  ⟨fun h => ⟨r, fromStrV4_fmt r h, rfl⟩,
   fun h => ⟨r, fromStrV6_fmt r h, rfl⟩⟩

theorem C7_parse_format_roundtrip_witness :
    (∃ r', fromStrV4 (fmtRangeV4 ⟨0xC0A80000, 16⟩) = .ok r' ∧
      fmtRangeV4 r' = fmtRangeV4 ⟨0xC0A80000, 16⟩) ∧
    (∃ r', fromStrV6 (fmtRangeV6 ⟨1, 128⟩) = .ok r' ∧
      fmtRangeV6 r' = fmtRangeV6 ⟨1, 128⟩) :=
  ⟨(C7_parse_format_roundtrip ⟨0xC0A80000, 16⟩).1 (by decide),
   (C7_parse_format_roundtrip ⟨1, 128⟩).2 (by decide)⟩

/-- C8 (amended): `MoreThanOneSlash` is returned exactly when the trimmed
input contains at least two `/`.  With exactly one `/`, `CidrInvalid` is
returned exactly when the address part is valid AND the prefix-length part
is non-numeric or out of range — an invalid address part wins and gives
`IpInvalid` even when the prefix length is also bad, because the
`(1..=2, Err(e))` match arm comes first (src/main.rs:188).  Valid inputs
with at most one `/`, a valid address and an in-range prefix length never
error. -/
theorem C8_error_taxonomy (s : List Char) :
    (fromStrV4 s = .error .moreThanOneSlash ↔ 2 ≤ (trim s).count '/') ∧
    (∀ a c, trim s = a ++ '/' :: c → '/' ∉ a → '/' ∉ c →
      (fromStrV4 s = .error .cidrInvalid ↔
        (parseV4addr a).isSome = true ∧
          (parseU8 c = none ∨ ∃ n, parseU8 c = some n ∧ 32 < n))) ∧
    (∀ a c i n, trim s = a ++ '/' :: c → '/' ∉ a → '/' ∉ c →
      parseV4addr a = some i → parseU8 c = some n → n ≤ 32 →
      fromStrV4 s = .ok (normalize 32 ⟨i, n⟩)) ∧
    ('/' ∉ trim s → ∀ i, parseV4addr (trim s) = some i →
      fromStrV4 s = .ok ⟨i, 32⟩) := by
  refine ⟨?_, ?_, ?_, ?_⟩
  · have hcount : (splitOnChar '/' (trim s)).length = (trim s).count '/' + 1 :=
      splitOnChar_length '/' (trim s)
    rcases hps : splitOnChar '/' (trim s) with - | ⟨a, - | ⟨b, - | ⟨c, t⟩⟩⟩
    · exact absurd hps (splitOnChar_ne_nil '/' (trim s))
    · rw [hps] at hcount
      simp only [List.length_cons, List.length_nil] at hcount
      constructor
      · intro habs
        rw [fromStrV4_eq_one s a hps] at habs
        cases hpa : parseV4addr a with
        | none => rw [hpa] at habs; simp at habs
        | some i => rw [hpa] at habs; simp at habs
      · intro hcnt
        omega
    · rw [hps] at hcount
      simp only [List.length_cons, List.length_nil] at hcount
      constructor
      · intro habs
        rw [fromStrV4_eq_two s a b hps] at habs
        cases hpa : parseV4addr a with
        | none => rw [hpa] at habs; simp at habs
        | some i =>
          rw [hpa] at habs
          cases hpb : parseU8 b with
          | none => simp only [hpb] at habs; simp at habs
          | some n =>
            simp only [hpb] at habs
            by_cases hn : n ≤ 32
            · rw [if_pos hn] at habs; simp at habs
            · rw [if_neg hn] at habs; simp at habs
      · intro hcnt
        omega
    · rw [hps] at hcount
      simp only [List.length_cons] at hcount
      exact ⟨fun _ => by omega, fun _ => fromStrV4_eq_many s a b c t hps⟩
  · intro a c habc hna hnc
    have hps : splitOnChar '/' (trim s) = [a, c] := by
      rw [habc, splitOnChar_append '/' _ _ hna, splitOnChar_not_mem '/' _ hnc]
    rw [fromStrV4_eq_two s a c hps]
    cases hpa : parseV4addr a with
    | none => simp
    | some i =>
      cases hpc : parseU8 c with
      | none => simp
      | some n =>
        by_cases hn : n ≤ 32
        · simp [hn] <;> omega
        · simp [hn] <;> omega
  · intro a c i n habc hna hnc hpa hpn hle
    have hps : splitOnChar '/' (trim s) = [a, c] := by
      rw [habc, splitOnChar_append '/' _ _ hna, splitOnChar_not_mem '/' _ hnc]
    rw [fromStrV4_eq_two s a c hps]
    simp only [hpa, hpn]
    rw [if_pos hle]
  · intro hns i hp
    rw [fromStrV4_eq_one s (trim s) (splitOnChar_not_mem '/' _ hns)]
    simp only [hp]

theorem C8_error_taxonomy_witness :
    fromStrV4 (String.toList "10.0.0.0/8") = .ok (normalize 32 ⟨0x0A000000, 8⟩) :=
  (C8_error_taxonomy _).2.2.1 (String.toList "10.0.0.0") (String.toList "8")
    0x0A000000 8 (by decide) (by decide) (by decide) (by decide) (by decide)
    (by decide)

/-- C8 counterexample to the original claim: in `"1.2.3/33"` the text after
the single `/` is the numeral `33`, an integer outside `0..=32`, so the
claim predicts `CidrInvalid`; the code returns `IpInvalid` because the
invalid address part `1.2.3` is checked first. -/
theorem C8_taxonomy_counterexample :
    fromStrV4 (String.toList "1.2.3/33") = .error .ipInvalid ∧
    RangeParseError.ipInvalid ≠ RangeParseError.cidrInvalid ∧
    (trim (String.toList "1.2.3/33")).count '/' = 1 ∧
    parseU8 (String.toList "33") = some 33 ∧ ¬ (33 : Nat) ≤ 32 :=
  ⟨rfl, by decide, rfl, rfl, by norm_num⟩

end IpCalc
